import Mathlib

/-!
Verification of the cache-coherent write-batching storage engine
(`src/storage/fastStorageProvider.ts` of the tslinqdb repository).

The engine is shallowly embedded as an explicit state machine:

* a table snapshot is a list of records (record contents are irrelevant to
  the storage layer, so records are modelled as integers);
* the JS `Map`s (`cache`, `pendingReads`, `writeQueue`, `readCounts`)
  become insertion-ordered association lists, with `mapSet` preserving the
  position of an existing key (exactly the ECMAScript `Map.set` contract)
  and appending fresh keys;
* the file system visible to the engine is a map from table name to file
  content, where a file is either readable JSON or unreadable/corrupt;
* `Date.now()` becomes an explicit `now : Nat` argument on each operation;
* the asynchronous `getData` is split at its single suspension point
  (`await loadPromise`, line 65) into `getDataBegin` (lines 49-62) and
  `getDataFinish` (lines 64-77), so that interleavings with other
  operations can be expressed; all other methods have no suspension point
  that is observable at this granularity;
* write/rename failures are injected through an explicit list `fails` of
  table names whose `writeToDisk` rejects.
-/

/-- A table snapshot: the records of one table (`any[]` in the source). -/
abbrev Snap := List Int

/-- Content of one table file on disk: readable JSON, or a file whose read
or JSON-decode fails (covering corrupt files and permission errors). -/
inductive FileContent where
  | ok (data : Snap)
  | bad
deriving DecidableEq, Repr

/-- `CacheEntry<T>` from the source (lines 14-18). -/
structure CacheEntry where
  data : Snap
  version : Nat
  lastAccess : Nat
deriving DecidableEq, Repr

/-- Lookup in an insertion-ordered association list (JS `Map.get`). -/
def mapGet {β : Type} (m : List (String × β)) (k : String) : Option β :=
  (m.find? (fun p => p.1 == k)).map (·.2)

/-- JS `Map.set`: overwrite in place when the key is present (keeping its
position in iteration order), otherwise append at the end.  A JS `Map`
never holds a key twice, so replacing the first occurrence implements the
update. -/
def mapSet {β : Type} : List (String × β) → String → β → List (String × β)
  | [], k, v => [(k, v)]
  | p :: rest, k, v =>
      if p.1 == k then (k, v) :: rest else p :: mapSet rest k v

/-- JS `Map.delete`: remove the key, keeping the order of the rest. -/
def mapDelete {β : Type} (m : List (String × β)) (k : String) :
    List (String × β) :=
  m.filter (fun p => !(p.1 == k))

/-- The keys of an association list, in iteration order. -/
def mapKeys {β : Type} (m : List (String × β)) : List String :=
  m.map (·.1)

/-- Well-formedness of a JS-`Map` model: no duplicate keys. -/
def MapWF {β : Type} (m : List (String × β)) : Prop :=
  (mapKeys m).Nodup

instance {β : Type} (m : List (String × β)) : Decidable (MapWF m) := by
  unfold MapWF; infer_instance

/-- Insert an element into a list assumed sorted by the key `f`, before the
first element of key not smaller than its own. -/
def insertSorted {α : Type} (f : α → Int) (x : α) : List α → List α
  | [] => [x]
  | y :: ys => if f x ≤ f y then x :: y :: ys else y :: insertSorted f x ys

/-- Stable ascending sort by the key `f`.  ECMAScript `Array.prototype.sort`
with a numeric comparator is a stable ascending sort, and a stable sort is
uniquely determined by the key order, so this insertion sort computes the
same list as the engine's `.sort((a, b) => ...)` calls. -/
def sortByField {α : Type} (f : α → Int) : List α → List α
  | [] => []
  | x :: xs => insertSorted f x (sortByField f xs)

instance {ε α : Type} [DecidableEq ε] [DecidableEq α] :
    DecidableEq (Except ε α) := fun a b =>
  match a, b with
  | .ok x, .ok y =>
      decidable_of_iff (x = y) ⟨by rintro rfl; rfl, fun h => by injection h⟩
  | .error x, .error y =>
      decidable_of_iff (x = y) ⟨by rintro rfl; rfl, fun h => by injection h⟩
  | .ok _, .error _ => .isFalse (fun h => by injection h)
  | .error _, .ok _ => .isFalse (fun h => by injection h)

/-- State of a `FastStorageProvider` instance (fields of the class, lines
20-35), plus the `disk` it is connected to and the log of `write-complete`
events it has emitted on its `eventBus`. -/
structure FastStorageProvider where
  cache : List (String × CacheEntry)
  pendingReads : List (String × Except Unit Snap)
  writeQueue : List (String × Snap)
  writeTimer : Bool
  version : Nat
  readCounts : List (String × Nat)
  disk : List (String × FileContent)
  emitted : List String
deriving DecidableEq, Repr

namespace FastStorageProvider

/-- The provider right after `connect` against a given data directory. -/
def init (disk : List (String × FileContent)) : FastStorageProvider :=
  { cache := [], pendingReads := [], writeQueue := [], writeTimer := false,
    version := 0, readCounts := [], disk := disk, emitted := [] }

/-- `loadFromDisk` (lines 99-111): a missing file (`ENOENT`) yields the
empty snapshot, an unreadable or undecodable file propagates the error. -/
def loadFromDisk (disk : List (String × FileContent)) (table : String) :
    Except Unit Snap :=
  match mapGet disk table with
  | none => .ok []
  | some (.ok d) => .ok d
  | some .bad => .error ()

/-- `evictIfNeeded` (lines 125-133): above 50 cached tables, sort all
entries by last access ascending and delete all but the newest 40. -/
def evictIfNeeded (cache : List (String × CacheEntry)) :
    List (String × CacheEntry) :=
  if cache.length > 50 then
    let entries := sortByField (fun p => (p.2.lastAccess : Int)) cache
    let toRemove := entries.take (entries.length - 40)
    toRemove.foldl (fun acc p => mapDelete acc p.1) cache
  else cache

/-- `addToCache` (lines 113-123): store a frozen copy of the snapshot
tagged with the current version and timestamp, then evict if needed. -/
def addToCache (s : FastStorageProvider) (table : String) (data : Snap)
    (now : Nat) : FastStorageProvider :=
  let frozen : CacheEntry := ⟨data, s.version, now⟩
  { s with cache := evictIfNeeded (mapSet s.cache table frozen) }

/-- `saveData` (lines 86-97): bump the process-wide version, promote the
snapshot into the cache, record it as the pending write for the table and
make sure a flush is scheduled. -/
def saveData (s : FastStorageProvider) (table : String) (data : Snap)
    (now : Nat) : FastStorageProvider :=
  let s1 := { s with version := s.version + 1 }
  let s2 := addToCache s1 table data now
  { s2 with writeQueue := mapSet s2.writeQueue table data, writeTimer := true }

/-- Outcome of the synchronous prefix of `getData`. -/
inductive GetOut where
  /-- The call resolved without suspending (cache hit), or joined an
  in-flight load and will resolve to that load's result. -/
  | val (r : Except Unit Snap)
  /-- The call started a fresh disk load and suspended at `await`. -/
  | wait
deriving DecidableEq, Repr

/-- `getData`, lines 49-62 (everything before `await loadPromise`):
cache hit returns a copy at once after refreshing the last-access time; an
in-flight load for the table is joined; otherwise a new load is started
and registered in `pendingReads`. -/
def getDataBegin (s : FastStorageProvider) (table : String) (now : Nat) :
    GetOut × FastStorageProvider :=
  match mapGet s.cache table with
  | some e =>
      let touched : CacheEntry := { e with lastAccess := now }
      (.val (.ok e.data), { s with cache := mapSet s.cache table touched })
  | none =>
      match mapGet s.pendingReads table with
      | some r => (.val r, s)
      | none =>
          let registered := mapSet s.pendingReads table (loadFromDisk s.disk table)
          (.wait, { s with pendingReads := registered })

/-- `getData`, lines 64-77 (everything after `await loadPromise`), for the
caller that started the load: on success bump the table's read count and
promote into the cache at the hot threshold (10); on failure propagate the
error; always unregister the in-flight load. -/
def getDataFinish (s : FastStorageProvider) (table : String) (now : Nat) :
    Option (Except Unit Snap) × FastStorageProvider :=
  match mapGet s.pendingReads table with
  | none => (none, s)
  | some r =>
      let s1 := { s with pendingReads := mapDelete s.pendingReads table }
      match r with
      | .ok data =>
          let reads := (mapGet s.readCounts table).getD 0 + 1
          let s2 := { s1 with readCounts := mapSet s1.readCounts table reads }
          let s3 := if reads ≥ 10 then addToCache s2 table data now else s2
          (some (.ok data), s3)
      | .error e => (some (.error e), s1)

/-- `flushWrites` (lines 135-148) with `writeToDisk` (lines 150-157)
inlined per table.  The timer slot is cleared first, the whole pending map
is taken and cleared, every table of the batch is handed to `writeToDisk`
concurrently (`Promise.all` starts them all, so a rejection of one does
not stop the disk effect of the others), and only when no write rejected
does control reach the loop emitting `write-complete` for each table —
when any write rejects, `Promise.all` rejects and no event is emitted. -/
def flushWrites (s : FastStorageProvider) (fails : List String) :
    FastStorageProvider :=
  let writes := s.writeQueue
  let s1 := { s with writeTimer := false, writeQueue := [] }
  let disk2 := writes.foldl
    (fun dsk p => if fails.contains p.1 then dsk else mapSet dsk p.1 (.ok p.2))
    s1.disk
  let emitted2 :=
    if writes.any (fun p => fails.contains p.1) then s1.emitted
    else s1.emitted ++ writes.map (·.1)
  { s1 with disk := disk2, emitted := emitted2 }

/-- Whether the `Promise.all` of a flush of the current queue resolves. -/
def flushResolves (s : FastStorageProvider) (fails : List String) : Bool :=
  !(s.writeQueue.any (fun p => fails.contains p.1))

/-- `close` (lines 167-175): flush if and only if a flush timer is
pending, then clear the cache and the in-flight reads; when the awaited
flush rejects, `close` rejects before reaching the clearing lines. -/
def close (s : FastStorageProvider) (fails : List String) :
    FastStorageProvider :=
  if s.writeTimer then
    let resolved := flushResolves s fails
    let s1 := flushWrites s fails
    if resolved then { s1 with cache := [], pendingReads := [] } else s1
  else
    { s with cache := [], pendingReads := [] }

/-- One schedulable step against a provider: a `saveData` call, the two
halves of a `getData` call, the debounce timer firing, or `close`. -/
inductive Op where
  | save (table : String) (data : Snap) (now : Nat)
  | getBegin (table : String) (now : Nat)
  | getFinish (table : String) (now : Nat)
  | flushTimer (fails : List String)
  | closeOp (fails : List String)
deriving DecidableEq, Repr

/-- Effect of one step on the provider state.  The debounce timer can only
fire while it is scheduled. -/
def step (s : FastStorageProvider) : Op → FastStorageProvider
  | .save t d now => saveData s t d now
  | .getBegin t now => (getDataBegin s t now).2
  | .getFinish t now => (getDataFinish s t now).2
  | .flushTimer fails => if s.writeTimer then flushWrites s fails else s
  | .closeOp fails => close s fails

/-- Run a sequence of steps. -/
def run (s : FastStorageProvider) (ops : List Op) : FastStorageProvider :=
  ops.foldl step s

end FastStorageProvider

/-!
## Path-level model of the stable file store

`writeToDisk` (lines 150-157) is modelled at the granularity of file-system
paths, with its two effects — writing the complete serialized snapshot to
the temporary sibling path, then renaming it onto the target — as separate
steps, so that the state between them (the crash point) is inspectable.
-/

/-- `JSON.stringify(data, null, 2)`: some complete serialization. -/
def serialize (d : Snap) : String := toString d

/-- `path.join(this.dataDir, table + ".json")`. -/
def dataPath (dir table : String) : String := dir ++ "/" ++ table ++ ".json"

/-- `filePath + ".tmp"`. -/
def tmpPath (dir table : String) : String := dataPath dir table ++ ".tmp"

/-- A file system: map from path to current file contents. -/
abbrev FS := List (String × String)

/-- `fs.rename(src, dst)`: atomically move the file at `src` onto `dst`. -/
def renameFile (fs : FS) (src dst : String) : FS :=
  match mapGet fs src with
  | some c => mapSet (mapDelete fs src) dst c
  | none => fs

/-- First half of `writeToDisk`: `fs.writeFile(tempPath, serialized)`. -/
def writeTmpStep (fs : FS) (dir table : String) (d : Snap) : FS :=
  mapSet fs (tmpPath dir table) (serialize d)

/-- Second half of `writeToDisk`: `fs.rename(tempPath, filePath)`. -/
def renameStep (fs : FS) (dir table : String) : FS :=
  renameFile fs (tmpPath dir table) (dataPath dir table)

/-!
## Heap model of JS array aliasing

For the snapshot-isolation claim the relevant JS semantics is mutable
objects shared by reference, at two levels: a table snapshot is an array
whose element slots hold references to record objects, and the records
themselves are mutable objects.  `addToCache` stores
`Object.freeze([...data])` (line 114) and a cache hit returns
`[...cached.data]` (line 53) — both are shallow copies: a fresh array
object whose slots hold the same record references as the source array,
and `Object.freeze` freezes only the new array itself (its element
slots), never the record objects behind them.  A heap is a list of
allocated arrays (slots plus frozen flag) and a list of record objects
(their current field contents, abstracted to one integer per record);
references are indices.
-/

/-- The JS heap restricted to the objects in play. -/
structure JSHeap where
  arrs : List (List Nat × Bool)
  recs : List Int
deriving DecidableEq, Repr

/-- The element slots (record references) of the array behind `a`. -/
def readSlots (h : JSHeap) (a : Nat) : List Nat :=
  ((h.arrs.get? a).map (·.1)).getD []

/-- Whether the array behind `a` is frozen. -/
def isFrozenArr (h : JSHeap) (a : Nat) : Bool :=
  ((h.arrs.get? a).map (·.2)).getD true

/-- The current contents of the record object behind `r`. -/
def readRec (h : JSHeap) (r : Nat) : Int :=
  (h.recs.get? r).getD 0

/-- The snapshot content observed through the array behind `a`: the
current contents of the records its slots reference. -/
def readSnap (h : JSHeap) (a : Nat) : Snap :=
  (readSlots h a).map (readRec h)

/-- Allocate a fresh array object with the given slots; returns the heap
and the fresh reference. -/
def allocArr (h : JSHeap) (slots : List Nat) (frozen : Bool) :
    JSHeap × Nat :=
  ({ h with arrs := h.arrs ++ [(slots, frozen)] }, h.arrs.length)

/-- Line 114, `Object.freeze([...data])`: a fresh frozen shallow copy of
the array behind `dataRef` — the same record references in the slots; the
cache entry keeps the returned array reference. -/
def promoteCopy (h : JSHeap) (dataRef : Nat) : JSHeap × Nat :=
  allocArr h (readSlots h dataRef) true

/-- Line 53, `[...cached.data]`: a fresh unfrozen shallow copy of the
cached array for the caller — again sharing the record objects. -/
def cacheHitCopy (h : JSHeap) (cacheRef : Nat) : JSHeap × Nat :=
  allocArr h (readSlots h cacheRef) false

/-- A single caller-side mutation: writing an element slot of some array
(`arr[i] = rec`, covering push/splice-style slot changes as well), which
`Object.freeze` blocks on frozen arrays — or assigning a field inside a
record object (`rec.field = v`), which no freeze of any array blocks. -/
inductive JSMut where
  | setSlot (a i r : Nat)
  | setField (r : Nat) (v : Int)
deriving DecidableEq, Repr

/-- Effect of one caller-side mutation on the heap. -/
def applyMut (h : JSHeap) : JSMut → JSHeap
  | .setSlot a i r =>
      if isFrozenArr h a then h
      else { h with arrs := h.arrs.set a ((readSlots h a).set i r, false) }
  | .setField r v => { h with recs := h.recs.set r v }

/-- A sequence of arbitrary caller-side mutations. -/
def applyMuts (h : JSHeap) (muts : List JSMut) : JSHeap :=
  muts.foldl applyMut h

/-!
## Secondary index, range query and binary search

`createIndex` (lines 177-187) sorts a snapshot by one field and persists
it; `queryRange` (lines 189-204) binary-searches the persisted sorted
array, falling back to a linear filter over `getData` when the index
cannot be loaded.  Records are a type `α` and the field access `r[field]`
is the projection `f : α → Int`.  The `while` loop of `binarySearch`
(lines 206-233) is written with explicit fuel; `arr.length + 1` iterations
always suffice (the search interval shrinks strictly each iteration).
-/

/-- The loop of `binarySearch` (lines 211-230).  `left`, `right` and
`result` are the mutable locals; `(left + right) / 2` on nonnegative
values coincides with `Math.floor((left + right) / 2)`. -/
def binarySearchGo {α : Type} [Inhabited α] (arr : List α) (f : α → Int)
    (value : Int) (findFirst : Bool) :
    Nat → Int → Int → Int → Int
  | 0, _, _, result => result
  | fuel + 1, left, right, result =>
    if left ≤ right then
      let mid := (left + right) / 2
      let midValue := f (arr.getD mid.toNat default)
      if findFirst then
        if value ≤ midValue then
          binarySearchGo arr f value findFirst fuel left (mid - 1) mid
        else
          binarySearchGo arr f value findFirst fuel (mid + 1) right result
      else
        if midValue ≤ value then
          binarySearchGo arr f value findFirst fuel (mid + 1) right mid
        else
          binarySearchGo arr f value findFirst fuel left (mid - 1) result
    else result

/-- `binarySearch(arr, field, value, findFirst)` (lines 206-233). -/
def binarySearch {α : Type} [Inhabited α] (arr : List α) (f : α → Int)
    (value : Int) (findFirst : Bool) : Int :=
  binarySearchGo arr f value findFirst (arr.length + 1) 0
    ((arr.length : Int) - 1) (if findFirst then (arr.length : Int) else -1)

/-- The sorted array `createIndex` persists (lines 178-183): the snapshot
stably sorted by the comparator `(a, b) => a[field] < b[field] ? -1 : ...`. -/
def createIndexContent {α : Type} (f : α → Int) (data : List α) : List α :=
  sortByField f data

/-- `sorted.slice(start, end + 1)` for the index bounds produced by the two
binary searches (both are at least `-1`, so no from-the-end indexing). -/
def jsSlice {α : Type} (l : List α) (s e : Int) : List α :=
  (l.drop s.toNat).take (e.toNat - s.toNat)

/-- `queryRange` through a freshly built, up-to-date index (lines 192-199
with the index file holding `createIndexContent`). -/
def queryRangeViaIndex {α : Type} [Inhabited α] (f : α → Int)
    (lo hi : Int) (data : List α) : List α :=
  let sorted := createIndexContent f data
  let start := binarySearch sorted f lo true
  let stop := binarySearch sorted f hi false
  jsSlice sorted start (stop + 1)

/-- The fallback path of `queryRange` (lines 200-203): full-table load plus
linear filter `item[field] >= min && item[field] <= max`. -/
def queryRangeFallback {α : Type} (f : α → Int) (lo hi : Int)
    (data : List α) : List α :=
  data.filter (fun item => lo ≤ f item && f item ≤ hi)

/-!
## Association-list (JS `Map`) lemmas
-/

theorem mapGet_nil {β : Type} (k : String) :
    mapGet ([] : List (String × β)) k = none := rfl

theorem mapGet_cons {β : Type} (a : String) (b : β) (m : List (String × β))
    (t : String) :
    mapGet ((a, b) :: m) t = if a = t then some b else mapGet m t := by
  by_cases h : a = t <;> simp [mapGet, List.find?_cons, h]

theorem mapGet_mapSet_self {β : Type} (m : List (String × β)) (k : String)
    (v : β) : mapGet (mapSet m k v) k = some v := by
  induction m with
  | nil => simp [mapSet, mapGet_cons]
  | cons p rest ih =>
      obtain ⟨a, b⟩ := p
      by_cases h : a = k
      · simp [mapSet, h, mapGet_cons]
      · simp [mapSet, h, mapGet_cons, ih]

theorem mapGet_mapSet_ne {β : Type} (m : List (String × β)) (k : String)
    (v : β) (t : String) (h : k ≠ t) :
    mapGet (mapSet m k v) t = mapGet m t := by
  induction m with
  | nil => simp [mapSet, mapGet_cons, h, mapGet_nil]
  | cons p rest ih =>
      obtain ⟨a, b⟩ := p
      by_cases hp : a = k
      · subst hp
        simp [mapSet, mapGet_cons, h]
      · simp [mapSet, hp, mapGet_cons, ih]

theorem mapGet_mapDelete_self {β : Type} (m : List (String × β)) (k : String) :
    mapGet (mapDelete m k) k = none := by
  induction m with
  | nil => rfl
  | cons p rest ih =>
      obtain ⟨a, b⟩ := p
      by_cases h : a = k
      · simpa [mapDelete, List.filter_cons, h] using ih
      · simpa [mapDelete, List.filter_cons, h, mapGet_cons] using ih

theorem mapGet_mapDelete_ne {β : Type} (m : List (String × β)) (k t : String)
    (h : k ≠ t) : mapGet (mapDelete m k) t = mapGet m t := by
  induction m with
  | nil => rfl
  | cons p rest ih =>
      obtain ⟨a, b⟩ := p
      by_cases hak : a = k
      · subst hak
        have hat : a ≠ t := fun hh => h (hh ▸ rfl)
        simp only [mapDelete, List.filter_cons] at ih ⊢
        simpa [mapGet_cons, hat] using ih
      · simp only [mapDelete, List.filter_cons] at ih ⊢
        simp only [show (a == k) = false by simpa using hak, Bool.not_false,
          if_true, cond_true]
        rw [mapGet_cons, mapGet_cons]
        by_cases hat : a = t
        · simp [hat]
        · simpa [hat] using ih

theorem mapKeys_mapSet_of_not_mem {β : Type} (m : List (String × β))
    (k : String) (v : β) (h : k ∉ mapKeys m) :
    mapKeys (mapSet m k v) = mapKeys m ++ [k] := by
  induction m with
  | nil => rfl
  | cons p rest ih =>
      obtain ⟨a, b⟩ := p
      simp only [mapKeys, List.map_cons, List.mem_cons] at h
      push_neg at h
      have hp : a ≠ k := fun hh => h.1 hh.symm
      simp only [mapSet, show (a == k) = false by simpa using hp, Bool.false_eq_true,
        if_false, mapKeys, List.map_cons, List.cons_append, List.cons.injEq, true_and]
      exact ih (by simpa [mapKeys] using h.2)

theorem mapKeys_mapSet_of_mem {β : Type} (m : List (String × β))
    (k : String) (v : β) (h : k ∈ mapKeys m) :
    mapKeys (mapSet m k v) = mapKeys m := by
  induction m with
  | nil => simp [mapKeys] at h
  | cons p rest ih =>
      obtain ⟨a, b⟩ := p
      by_cases hp : a = k
      · simp [mapSet, hp, mapKeys]
      · have hmem : k ∈ mapKeys rest := by
          simp only [mapKeys, List.map_cons, List.mem_cons] at h
          rcases h with h | h
          · exact absurd h.symm hp
          · simpa [mapKeys] using h
        simp only [mapSet, show (a == k) = false by simpa using hp,
          Bool.false_eq_true, if_false, mapKeys, List.map_cons, List.cons.injEq,
          true_and]
        exact ih hmem

theorem MapWF.set {β : Type} {m : List (String × β)} (hwf : MapWF m)
    (k : String) (v : β) : MapWF (mapSet m k v) := by
  by_cases h : k ∈ mapKeys m
  · unfold MapWF
    rw [mapKeys_mapSet_of_mem m k v h]
    exact hwf
  · unfold MapWF
    rw [mapKeys_mapSet_of_not_mem m k v h]
    unfold MapWF at hwf
    simp [List.nodup_append, hwf, h]

theorem mapKeys_filter_sublist {β : Type} (m : List (String × β))
    (p : String × β → Bool) : (mapKeys (m.filter p)).Sublist (mapKeys m) :=
  List.Sublist.map _ (List.filter_sublist m)

theorem MapWF.del {β : Type} {m : List (String × β)} (hwf : MapWF m)
    (k : String) : MapWF (mapDelete m k) :=
  List.Nodup.sublist (mapKeys_filter_sublist m _) hwf

theorem MapWF.flt {β : Type} {m : List (String × β)} (hwf : MapWF m)
    (p : String × β → Bool) : MapWF (m.filter p) :=
  List.Nodup.sublist (mapKeys_filter_sublist m p) hwf

theorem mapGet_eq_none_of_not_mem_keys {β : Type} (m : List (String × β))
    (t : String) (h : t ∉ mapKeys m) : mapGet m t = none := by
  induction m with
  | nil => rfl
  | cons p rest ih =>
      obtain ⟨a, b⟩ := p
      simp only [mapKeys, List.map_cons, List.mem_cons] at h
      push_neg at h
      have hat : a ≠ t := fun hh => h.1 hh.symm
      rw [mapGet_cons, if_neg hat]
      exact ih (by simpa [mapKeys] using h.2)

theorem mem_keys_of_mapGet_eq_some {β : Type} {m : List (String × β)}
    {t : String} {v : β} (h : mapGet m t = some v) : t ∈ mapKeys m := by
  by_contra hc
  rw [mapGet_eq_none_of_not_mem_keys m t hc] at h
  exact Option.noConfusion h

/-- Under well-formedness, lookup through a `filter` keeps the entry when
it passes the predicate and loses it otherwise. -/
theorem mapGet_filter {β : Type} {m : List (String × β)} (hwf : MapWF m)
    (p : String × β → Bool) (t : String) {v : β} (h : mapGet m t = some v) :
    mapGet (m.filter p) t = if p (t, v) then some v else none := by
  induction m with
  | nil => simp [mapGet] at h
  | cons q rest ih =>
      obtain ⟨a, b⟩ := q
      have hwfr : MapWF rest := (List.nodup_cons.mp hwf).2
      have hanotin : a ∉ mapKeys rest := by
        have := (List.nodup_cons.mp hwf).1
        simpa [mapKeys] using this
      by_cases hat : a = t
      · subst hat
        rw [mapGet_cons, if_pos rfl] at h
        cases h
        by_cases hp : p (a, v) = true
        · simp [List.filter_cons, hp, mapGet_cons]
        · simp only [List.filter_cons, hp, Bool.false_eq_true, if_neg, if_false]
          apply mapGet_eq_none_of_not_mem_keys
          intro hmem
          exact hanotin ((mapKeys_filter_sublist rest p).subset hmem)
      · rw [mapGet_cons, if_neg hat] at h
        by_cases hp : p (a, b) = true
        · simp only [List.filter_cons, hp, if_true]
          rw [mapGet_cons, if_neg hat]
          exact ih hwfr h
        · simp only [List.filter_cons, hp, Bool.false_eq_true, if_false]
          exact ih hwfr h

/-!
## Stable sort lemmas
-/

theorem perm_insertSorted {α : Type} (f : α → Int) (x : α) (l : List α) :
    (insertSorted f x l).Perm (x :: l) := by
  induction l with
  | nil => simp [insertSorted]
  | cons y ys ih =>
      by_cases h : f x ≤ f y
      · simp [insertSorted, h]
      · simp only [insertSorted, h, if_false]
        exact (List.Perm.cons y ih).trans (List.Perm.swap x y ys)

theorem perm_sortByField {α : Type} (f : α → Int) (l : List α) :
    (sortByField f l).Perm l := by
  induction l with
  | nil => simp [sortByField]
  | cons x xs ih =>
      exact (perm_insertSorted f x (sortByField f xs)).trans
        (List.Perm.cons x ih)

theorem mem_insertSorted {α : Type} (f : α → Int) (x y : α) (l : List α)
    (h : y ∈ insertSorted f x l) : y = x ∨ y ∈ l := by
  have := (perm_insertSorted f x l).mem_iff.mp h
  simpa using this

theorem pairwise_insertSorted {α : Type} (f : α → Int) (x : α)
    {l : List α} (h : l.Pairwise (fun a b => f a ≤ f b)) :
    (insertSorted f x l).Pairwise (fun a b => f a ≤ f b) := by
  induction l with
  | nil => simp [insertSorted]
  | cons y ys ih =>
      rw [List.pairwise_cons] at h
      by_cases hxy : f x ≤ f y
      · simp only [insertSorted, hxy, if_true]
        rw [List.pairwise_cons]
        constructor
        · intro b hb
          rcases List.mem_cons.mp hb with rfl | hb
          · exact hxy
          · exact le_trans hxy (h.1 b hb)
        · rw [List.pairwise_cons]
          exact h
      · simp only [insertSorted, hxy, if_false]
        rw [List.pairwise_cons]
        constructor
        · intro b hb
          rcases mem_insertSorted f x b ys hb with rfl | hb
          · exact le_of_lt (lt_of_not_le hxy)
          · exact h.1 b hb
        · exact ih h.2

theorem pairwise_sortByField {α : Type} (f : α → Int) (l : List α) :
    (sortByField f l).Pairwise (fun a b => f a ≤ f b) := by
  induction l with
  | nil => simp [sortByField]
  | cons x xs ih => exact pairwise_insertSorted f x ih

theorem insertSorted_front {α : Type} (f : α → Int) (x : α) (l : List α)
    (h : ∀ b ∈ l, f x ≤ f b) : insertSorted f x l = x :: l := by
  cases l with
  | nil => rfl
  | cons y ys => simp [insertSorted, h y (List.mem_cons_self y ys)]

/-!
## Stable file store: atomic replace (claim C6)
-/

theorem append_tmp_ne (s : String) : s ++ ".tmp" ≠ s := by
  intro h
  have hlen := congrArg String.length h
  rw [String.length_append] at hlen
  have h4 : (".tmp" : String).length = 4 := rfl
  omega

theorem tmpPath_ne_dataPath (dir table : String) :
    tmpPath dir table ≠ dataPath dir table :=
  append_tmp_ne (dataPath dir table)

/-- C6: the two steps of `writeToDisk` leave the target path holding either
its previous content or the complete new content at every point, with the
crash point (after the temp write, before the rename) keeping the original
target intact and the temp file fully written. -/
theorem C6_atomic_replace (fs : FS) (dir table : String) (d : Snap) :
    mapGet (writeTmpStep fs dir table d) (dataPath dir table)
        = mapGet fs (dataPath dir table)
    ∧ mapGet (writeTmpStep fs dir table d) (tmpPath dir table)
        = some (serialize d)
    ∧ mapGet (renameStep (writeTmpStep fs dir table d) dir table)
        (dataPath dir table) = some (serialize d)
    ∧ mapGet (renameStep (writeTmpStep fs dir table d) dir table)
        (tmpPath dir table) = none
    ∧ ∀ g ∈ [fs, writeTmpStep fs dir table d,
        renameStep (writeTmpStep fs dir table d) dir table],
        mapGet g (dataPath dir table) = mapGet fs (dataPath dir table)
        ∨ mapGet g (dataPath dir table) = some (serialize d) := by
  have hne := tmpPath_ne_dataPath dir table
  have h1 : mapGet (writeTmpStep fs dir table d) (dataPath dir table)
      = mapGet fs (dataPath dir table) :=
    mapGet_mapSet_ne fs (tmpPath dir table) (serialize d) (dataPath dir table) hne
  have h2 : mapGet (writeTmpStep fs dir table d) (tmpPath dir table)
      = some (serialize d) :=
    mapGet_mapSet_self fs (tmpPath dir table) (serialize d)
  have h3 : renameStep (writeTmpStep fs dir table d) dir table
      = mapSet (mapDelete (writeTmpStep fs dir table d) (tmpPath dir table))
          (dataPath dir table) (serialize d) := by
    unfold renameStep renameFile
    rw [h2]
  refine ⟨h1, h2, ?_, ?_, ?_⟩
  · rw [h3]
    exact mapGet_mapSet_self _ _ _
  · rw [h3]
    rw [mapGet_mapSet_ne _ _ _ _ (fun hh => hne hh.symm)]
    exact mapGet_mapDelete_self _ _
  · intro g hg
    simp only [List.mem_cons, List.mem_singleton, List.not_mem_nil, or_false] at hg
    rcases hg with rfl | rfl | rfl
    · exact Or.inl rfl
    · exact Or.inl h1
    · refine Or.inr ?_
      rw [h3]
      exact mapGet_mapSet_self _ _ _

/-!
## Flush batch lemmas (claims C2, C3, C10)
-/

namespace FastStorageProvider

/-- The disk after a flush batch, key not in the batch: untouched. -/
theorem flushFold_get_not_mem (writes : List (String × Snap))
    (fails : List String) (disk0 : List (String × FileContent)) (t : String)
    (h : t ∉ mapKeys writes) :
    mapGet (writes.foldl
      (fun dsk p => if fails.contains p.1 then dsk
        else mapSet dsk p.1 (FileContent.ok p.2)) disk0) t = mapGet disk0 t := by
  induction writes generalizing disk0 with
  | nil => rfl
  | cons q rest ih =>
      obtain ⟨a, b⟩ := q
      simp only [mapKeys, List.map_cons, List.mem_cons] at h
      push_neg at h
      have hat : a ≠ t := fun hh => h.1 hh.symm
      simp only [List.foldl_cons]
      rw [ih _ (by simpa [mapKeys] using h.2)]
      by_cases hf : a ∈ fails
      · simp [hf]
      · simp [hf, mapGet_mapSet_ne _ _ _ _ hat]

/-- A batch table whose write does not fail ends up on disk with its
queued snapshot. -/
theorem flushFold_get_ok (writes : List (String × Snap))
    (fails : List String) (disk0 : List (String × FileContent)) (t : String)
    (d : Snap) (hwf : MapWF writes) (hget : mapGet writes t = some d)
    (hok : fails.contains t = false) :
    mapGet (writes.foldl
      (fun dsk p => if fails.contains p.1 then dsk
        else mapSet dsk p.1 (FileContent.ok p.2)) disk0) t
      = some (FileContent.ok d) := by
  induction writes generalizing disk0 with
  | nil => simp [mapGet] at hget
  | cons q rest ih =>
      obtain ⟨a, b⟩ := q
      have hwfr : MapWF rest := (List.nodup_cons.mp hwf).2
      by_cases hat : a = t
      · subst hat
        rw [mapGet_cons, if_pos rfl] at hget
        cases hget
        have hnot : a ∉ mapKeys rest := by
          have := (List.nodup_cons.mp hwf).1
          simpa [mapKeys] using this
        have hokm : a ∉ fails := by simpa using hok
        simp only [List.foldl_cons]
        rw [if_neg (by simpa using hokm)]
        rw [flushFold_get_not_mem rest fails _ a hnot]
        exact mapGet_mapSet_self _ _ _
      · rw [mapGet_cons, if_neg hat] at hget
        simp only [List.foldl_cons]
        exact ih _ hwfr hget

/-- A batch table whose write fails keeps its previous disk content. -/
theorem flushFold_get_failed (writes : List (String × Snap))
    (fails : List String) (disk0 : List (String × FileContent)) (t : String)
    (d : Snap) (hwf : MapWF writes) (hget : mapGet writes t = some d)
    (hfail : fails.contains t = true) :
    mapGet (writes.foldl
      (fun dsk p => if fails.contains p.1 then dsk
        else mapSet dsk p.1 (FileContent.ok p.2)) disk0) t
      = mapGet disk0 t := by
  induction writes generalizing disk0 with
  | nil => rfl
  | cons q rest ih =>
      obtain ⟨a, b⟩ := q
      have hwfr : MapWF rest := (List.nodup_cons.mp hwf).2
      by_cases hat : a = t
      · subst hat
        have hnot : a ∉ mapKeys rest := by
          have := (List.nodup_cons.mp hwf).1
          simpa [mapKeys] using this
        simp only [List.foldl_cons]
        rw [if_pos hfail]
        exact flushFold_get_not_mem rest fails disk0 a hnot
      · rw [mapGet_cons, if_neg hat] at hget
        simp only [List.foldl_cons]
        rw [ih _ hwfr hget]
        by_cases hf : a ∈ fails
        · simp [hf]
        · simp [hf, mapGet_mapSet_ne _ _ _ _ hat]

end FastStorageProvider

namespace FastStorageProvider

theorem flushWrites_disk (s : FastStorageProvider) (fails : List String) :
    (flushWrites s fails).disk = s.writeQueue.foldl
      (fun dsk p => if fails.contains p.1 then dsk
        else mapSet dsk p.1 (FileContent.ok p.2)) s.disk := rfl

theorem flushWrites_emitted (s : FastStorageProvider) (fails : List String) :
    (flushWrites s fails).emitted =
      if s.writeQueue.any (fun p => fails.contains p.1) then s.emitted
      else s.emitted ++ mapKeys s.writeQueue := rfl

/-- C2, amended: when one table of a flush batch fails, every other table
is still persisted with its queued snapshot and the failed table keeps its
previous file, the whole queue is dropped (no retry) — but no
`write-complete` event at all is emitted for a batch containing a failure,
because the emission loop only runs after `Promise.all` resolves. -/
theorem C2_flush_per_table_amended (s : FastStorageProvider)
    (fails : List String) (hwf : MapWF s.writeQueue) :
    (∀ t d, mapGet s.writeQueue t = some d → fails.contains t = false →
      mapGet (flushWrites s fails).disk t = some (FileContent.ok d))
    ∧ (∀ t d, mapGet s.writeQueue t = some d → fails.contains t = true →
      mapGet (flushWrites s fails).disk t = mapGet s.disk t)
    ∧ (flushWrites s fails).writeQueue = []
    ∧ (s.writeQueue.any (fun p => fails.contains p.1) = true →
      (flushWrites s fails).emitted = s.emitted)
    ∧ (s.writeQueue.any (fun p => fails.contains p.1) = false →
      (flushWrites s fails).emitted = s.emitted ++ mapKeys s.writeQueue) := by
  refine ⟨?_, ?_, rfl, ?_, ?_⟩
  · intro t d h hok
    rw [flushWrites_disk]
    exact flushFold_get_ok _ _ _ _ _ hwf h hok
  · intro t d h hfail
    rw [flushWrites_disk]
    exact flushFold_get_failed _ _ _ _ _ hwf h hfail
  · intro h
    rw [flushWrites_emitted, if_pos h]
  · intro h
    rw [flushWrites_emitted, if_neg (by rw [h]; simp)]

/-- C2, counterexample to the claim as stated: in a batch where table "b"
fails, table "a" is persisted, yet no `write-complete` event is emitted
for "a" — the claim that each successfully persisted table still emits its
notification is false on the code, since `Promise.all` rejects before the
emission loop runs. -/
theorem C2_counterexample :
    mapGet (flushWrites
      { cache := [], pendingReads := [],
        writeQueue := [("a", [1]), ("b", [2])], writeTimer := true,
        version := 2, readCounts := [], disk := [], emitted := [] }
      ["b"]).disk "a" = some (FileContent.ok [1])
    ∧ (flushWrites
      { cache := [], pendingReads := [],
        writeQueue := [("a", [1]), ("b", [2])], writeTimer := true,
        version := 2, readCounts := [], disk := [], emitted := [] }
      ["b"]).emitted = [] := by decide

/-- C2 amended, witness at a batch of one table with no failure. -/
theorem C2_flush_per_table_amended_witness :
    mapGet (flushWrites
      { cache := [], pendingReads := [], writeQueue := [("a", [1])],
        writeTimer := true, version := 1, readCounts := [], disk := [],
        emitted := [] } []).disk "a" = some (FileContent.ok [1]) :=
  (C2_flush_per_table_amended _ [] (by decide)).1 "a" [1] (by decide) (by decide)

theorem countP_key_mapSet {β : Type} (m : List (String × β)) (t : String)
    (d : β) (hwf : MapWF m) :
    (mapSet m t d).countP (fun p => p.1 == t) = 1 := by
  induction m with
  | nil => simp [mapSet, List.countP_cons]
  | cons q rest ih =>
      obtain ⟨a, b⟩ := q
      have hwfr : MapWF rest := (List.nodup_cons.mp hwf).2
      by_cases hat : a = t
      · subst hat
        have hnot : a ∉ mapKeys rest := by
          have := (List.nodup_cons.mp hwf).1
          simpa [mapKeys] using this
        have hzero : rest.countP (fun p => p.1 == a) = 0 := by
          rw [List.countP_eq_zero]
          intro p hp hc
          exact hnot (by
            have : p.1 = a := by simpa using hc
            simpa [mapKeys, this] using List.mem_map_of_mem (·.1) hp)
        simp [mapSet, List.countP_cons, hzero]
      · simp only [mapSet, show (a == t) = false by simpa using hat,
          Bool.false_eq_true, if_false]
        rw [List.countP_cons]
        simp [show (a == t) = false by simpa using hat, ih hwfr]

theorem saveData_writeQueue (s : FastStorageProvider) (t : String) (d : Snap)
    (now : Nat) : (saveData s t d now).writeQueue = mapSet s.writeQueue t d :=
  rfl

theorem foldSave_writeQueue_wf (snaps : List Snap) (s : FastStorageProvider)
    (t : String) (now : Nat) (hwf : MapWF s.writeQueue) :
    MapWF ((snaps.foldl (fun st d => saveData st t d now) s).writeQueue) := by
  induction snaps generalizing s with
  | nil => exact hwf
  | cons d rest ih =>
      simp only [List.foldl_cons]
      exact ih _ (by rw [saveData_writeQueue]; exact hwf.set t d)

/-- C3: any number of `saveData` calls for one table inside a single
debounce window leave exactly one pending write for that table, holding
the snapshot of the last call, and the flush that ends the window performs
exactly one disk write for that table, with exactly that content. -/
theorem C3_write_coalescing (s : FastStorageProvider) (t : String)
    (snaps : List Snap) (now : Nat) (hwf : MapWF s.writeQueue)
    (hne : snaps ≠ []) :
    ∃ last, snaps.getLast? = some last
      ∧ mapGet (snaps.foldl (fun st d => saveData st t d now) s).writeQueue t
          = some last
      ∧ (snaps.foldl (fun st d => saveData st t d now) s).writeQueue.countP
          (fun p => p.1 == t) = 1
      ∧ mapGet (flushWrites
          (snaps.foldl (fun st d => saveData st t d now) s) []).disk t
          = some (FileContent.ok last)
      ∧ (flushWrites
          (snaps.foldl (fun st d => saveData st t d now) s) []).writeQueue
          = [] := by
  rcases List.eq_nil_or_concat snaps with rfl | ⟨pre, lastd, rfl⟩
  · exact absurd rfl hne
  · simp only [List.concat_eq_append] at hne ⊢
    refine ⟨lastd, List.getLast?_concat _, ?_, ?_, ?_, rfl⟩
    · rw [List.foldl_append, List.foldl_cons, List.foldl_nil,
        saveData_writeQueue]
      exact mapGet_mapSet_self _ _ _
    · rw [List.foldl_append, List.foldl_cons, List.foldl_nil,
        saveData_writeQueue]
      exact countP_key_mapSet _ _ _ (foldSave_writeQueue_wf pre s t now hwf)
    · rw [flushWrites_disk]
      rw [List.foldl_append, List.foldl_cons, List.foldl_nil,
        saveData_writeQueue]
      exact flushFold_get_ok _ _ _ _ _
        ((foldSave_writeQueue_wf pre s t now hwf).set t lastd)
        (mapGet_mapSet_self _ _ _) rfl

/-- C3 witness: two writes to table "a" in one window. -/
theorem C3_write_coalescing_witness :
    ∃ last, ([[1], [2]] : List Snap).getLast? = some last
      ∧ mapGet (([[1], [2]] : List Snap).foldl
          (fun st d => saveData st "a" d 0) (init [])).writeQueue "a"
          = some last
      ∧ (([[1], [2]] : List Snap).foldl
          (fun st d => saveData st "a" d 0) (init [])).writeQueue.countP
          (fun p => p.1 == "a") = 1
      ∧ mapGet (flushWrites (([[1], [2]] : List Snap).foldl
          (fun st d => saveData st "a" d 0) (init [])) []).disk "a"
          = some (FileContent.ok [2])
      ∧ (flushWrites (([[1], [2]] : List Snap).foldl
          (fun st d => saveData st "a" d 0) (init [])) []).writeQueue
          = [] := by
  have h := C3_write_coalescing (init []) "a" [[1], [2]] 0 (by decide)
    (by decide)
  obtain ⟨last, h1, h2, h3, h4, h5⟩ := h
  have hl : last = [2] := by
    have : some last = some ([2] : Snap) := by rw [← h1]; decide
    injection this
  subst hl
  exact ⟨[2], h1, h2, h3, h4, h5⟩

end FastStorageProvider

namespace FastStorageProvider

theorem getDataBegin_writeQueue (s : FastStorageProvider) (t : String)
    (now : Nat) : (getDataBegin s t now).2.writeQueue = s.writeQueue := by
  unfold getDataBegin
  cases mapGet s.cache t with
  | some e => rfl
  | none =>
      cases mapGet s.pendingReads t with
      | some r => rfl
      | none => rfl

theorem getDataBegin_writeTimer (s : FastStorageProvider) (t : String)
    (now : Nat) : (getDataBegin s t now).2.writeTimer = s.writeTimer := by
  unfold getDataBegin
  cases mapGet s.cache t with
  | some e => rfl
  | none =>
      cases mapGet s.pendingReads t with
      | some r => rfl
      | none => rfl

theorem getDataBegin_disk (s : FastStorageProvider) (t : String)
    (now : Nat) : (getDataBegin s t now).2.disk = s.disk := by
  unfold getDataBegin
  cases mapGet s.cache t with
  | some e => rfl
  | none =>
      cases mapGet s.pendingReads t with
      | some r => rfl
      | none => rfl

theorem getDataFinish_writeQueue (s : FastStorageProvider) (t : String)
    (now : Nat) : (getDataFinish s t now).2.writeQueue = s.writeQueue := by
  unfold getDataFinish addToCache
  cases mapGet s.pendingReads t with
  | none => rfl
  | some r =>
      cases r with
      | error e => rfl
      | ok data =>
          dsimp only
          split <;> rfl

theorem getDataFinish_writeTimer (s : FastStorageProvider) (t : String)
    (now : Nat) : (getDataFinish s t now).2.writeTimer = s.writeTimer := by
  unfold getDataFinish addToCache
  cases mapGet s.pendingReads t with
  | none => rfl
  | some r =>
      cases r with
      | error e => rfl
      | ok data =>
          dsimp only
          split <;> rfl

theorem getDataFinish_disk (s : FastStorageProvider) (t : String)
    (now : Nat) : (getDataFinish s t now).2.disk = s.disk := by
  unfold getDataFinish addToCache
  cases mapGet s.pendingReads t with
  | none => rfl
  | some r =>
      cases r with
      | error e => rfl
      | ok data =>
          dsimp only
          split <;> rfl

/-- A flush of an empty failure set always resolves. -/
theorem flushResolves_nil (s : FastStorageProvider) :
    flushResolves s [] = true := by
  simp [flushResolves]

/-- The scheduling invariant behind claim C10: whenever the pending-write
map is non-empty, a flush timer is scheduled. -/
def TimerInv (s : FastStorageProvider) : Prop :=
  s.writeQueue ≠ [] → s.writeTimer = true

theorem timerInv_step (s : FastStorageProvider) (op : Op)
    (h : TimerInv s) : TimerInv (step s op) := by
  cases op with
  | save t d now => intro _; rfl
  | getBegin t now =>
      intro hq
      rw [step, getDataBegin_writeTimer]
      exact h (by rwa [step, getDataBegin_writeQueue] at hq)
  | getFinish t now =>
      intro hq
      rw [step, getDataFinish_writeTimer]
      exact h (by rwa [step, getDataFinish_writeQueue] at hq)
  | flushTimer fails =>
      intro hq
      by_cases ht : s.writeTimer = true
      · exfalso
        apply hq
        simp [step, ht, flushWrites]
      · have hq2 : s.writeQueue ≠ [] := by simpa [step, ht] using hq
        simpa [step, ht] using h hq2
  | closeOp fails =>
      by_cases ht : s.writeTimer = true
      · intro hq
        exfalso
        apply hq
        by_cases hr : flushResolves s fails = true <;>
          simp [step, close, ht, hr, flushWrites]
      · intro hq
        have hq2 : s.writeQueue ≠ [] := by simpa [step, close, ht] using hq
        exact absurd (h hq2) ht

theorem writeQueue_wf_step (s : FastStorageProvider) (op : Op)
    (h : MapWF s.writeQueue) : MapWF (step s op).writeQueue := by
  cases op with
  | save t d now => exact h.set t d
  | getBegin t now => rw [step, getDataBegin_writeQueue]; exact h
  | getFinish t now => rw [step, getDataFinish_writeQueue]; exact h
  | flushTimer fails =>
      by_cases ht : s.writeTimer = true
      · simp only [step, ht, if_true]
        exact List.nodup_nil
      · simpa [step, ht] using h
  | closeOp fails =>
      by_cases ht : s.writeTimer = true
      · by_cases hr : flushResolves s fails = true <;>
          · simp [step, close, ht, hr, flushWrites]
            exact List.nodup_nil
      · simpa [step, close, ht] using h

theorem run_timerInv_and_wf (dsk : List (String × FileContent))
    (ops : List Op) :
    TimerInv (run (init dsk) ops) ∧ MapWF (run (init dsk) ops).writeQueue := by
  suffices h : ∀ (s : FastStorageProvider), TimerInv s → MapWF s.writeQueue →
      TimerInv (run s ops) ∧ MapWF (run s ops).writeQueue by
    exact h (init dsk) (fun hq => absurd rfl hq) List.nodup_nil
  induction ops with
  | nil => exact fun s hi hw => ⟨hi, hw⟩
  | cons op rest ih =>
      intro s hi hw
      exact ih (step s op) (timerInv_step s op hi) (writeQueue_wf_step s op hw)

/-- `close` with a scheduled timer flushes and then clears; all queued
writes that do not fail end up on disk. -/
theorem close_nil_disk (s : FastStorageProvider) (hinv : TimerInv s)
    (hwf : MapWF s.writeQueue) (t : String) (d : Snap)
    (hget : mapGet s.writeQueue t = some d) :
    mapGet (close s []).disk t = some (FileContent.ok d) := by
  by_cases ht : s.writeTimer = true
  · have hdisk : (close s []).disk = (flushWrites s []).disk := by
      simp [close, ht, flushResolves_nil]
    rw [hdisk, flushWrites_disk]
    exact flushFold_get_ok _ _ _ _ _ hwf hget rfl
  · have hq : s.writeQueue = [] := by
      by_contra hc
      exact ht (hinv hc)
    rw [hq] at hget
    exact absurd hget (by simp [mapGet])

theorem close_nil_clears (s : FastStorageProvider) (hinv : TimerInv s) :
    (close s []).cache = [] ∧ (close s []).pendingReads = []
    ∧ (close s []).writeQueue = [] := by
  by_cases ht : s.writeTimer = true
  · refine ⟨?_, ?_, ?_⟩ <;> simp [close, ht, flushResolves_nil, flushWrites]
  · have hq : s.writeQueue = [] := by
      by_contra hc
      exact ht (hinv hc)
    refine ⟨?_, ?_, ?_⟩ <;> simp [close, ht, hq]

/-- C10: reachable states satisfy the scheduling invariant (a non-empty
pending-write map always has a flush timer scheduled), so `close` — which
flushes exactly when a timer is scheduled — persists every pending write
to disk and only then clears the cache and in-flight reads; no write
accepted by `saveData` is silently dropped by teardown. -/
theorem C10_close_flushes_pending (dsk : List (String × FileContent))
    (ops : List Op) :
    ((run (init dsk) ops).writeQueue ≠ [] →
      (run (init dsk) ops).writeTimer = true)
    ∧ (∀ t d, mapGet (run (init dsk) ops).writeQueue t = some d →
      mapGet (close (run (init dsk) ops) []).disk t
        = some (FileContent.ok d))
    ∧ (close (run (init dsk) ops) []).cache = []
    ∧ (close (run (init dsk) ops) []).pendingReads = []
    ∧ (close (run (init dsk) ops) []).writeQueue = [] := by
  obtain ⟨hinv, hwf⟩ := run_timerInv_and_wf dsk ops
  obtain ⟨hc, hp, hq⟩ := close_nil_clears _ hinv
  exact ⟨hinv, fun t d hget => close_nil_disk _ hinv hwf t d hget, hc, hp, hq⟩

/-- C10 witness: one accepted write, then teardown; the write reaches
disk. -/
theorem C10_close_flushes_pending_witness :
    mapGet (close (run (init []) [Op.save "a" [1] 0]) []).disk "a"
      = some (FileContent.ok [1]) :=
  (C10_close_flushes_pending [] [Op.save "a" [1] 0]).2.1 "a" [1] (by decide)

end FastStorageProvider

namespace FastStorageProvider

theorem getDataBegin_miss (s : FastStorageProvider) (t : String) (now : Nat)
    (hc : mapGet s.cache t = none) (hp : mapGet s.pendingReads t = none) :
    getDataBegin s t now = (.wait,
      { s with pendingReads :=
          mapSet s.pendingReads t (loadFromDisk s.disk t) }) := by
  simp only [getDataBegin, hc, hp]

theorem getDataBegin_pending (s : FastStorageProvider) (t : String)
    (now : Nat) (hc : mapGet s.cache t = none) (r : Except Unit Snap)
    (hp : mapGet s.pendingReads t = some r) :
    getDataBegin s t now = (.val r, s) := by
  simp only [getDataBegin, hc, hp]

theorem getDataFinish_of_pending_ok (s : FastStorageProvider) (t : String)
    (now : Nat) (data : Snap)
    (hp : mapGet s.pendingReads t = some (.ok data)) :
    (getDataFinish s t now).1 = some (.ok data) := by
  simp only [getDataFinish, hp]

theorem getDataFinish_of_pending_error (s : FastStorageProvider)
    (t : String) (now : Nat) (e : Unit)
    (hp : mapGet s.pendingReads t = some (.error e)) :
    (getDataFinish s t now).1 = some (.error e) := by
  simp only [getDataFinish, hp]

/-- C5: a missing table file is not an error — the full `getData` cycle
resolves to the empty snapshot and never touches the disk; a caller that
joins an in-flight load observes exactly that load's result (so a load
error reaches every coalesced caller); an unreadable or undecodable file
makes the registered load and the initiating caller's `getData` reject,
again without touching the disk. -/
theorem C5_missing_file_not_error (s : FastStorageProvider) (t : String)
    (now now2 : Nat) (hc : mapGet s.cache t = none) :
    (mapGet s.pendingReads t = none → mapGet s.disk t = none →
        loadFromDisk s.disk t = .ok []
        ∧ (getDataBegin s t now).1 = .wait
        ∧ (getDataBegin s t now).2.disk = s.disk
        ∧ (getDataFinish (getDataBegin s t now).2 t now2).1 = some (.ok [])
        ∧ (getDataFinish (getDataBegin s t now).2 t now2).2.disk = s.disk)
    ∧ (∀ r, mapGet s.pendingReads t = some r →
        (getDataBegin s t now).1 = .val r ∧ (getDataBegin s t now).2 = s)
    ∧ (mapGet s.pendingReads t = none → mapGet s.disk t = some .bad →
        mapGet (getDataBegin s t now).2.pendingReads t = some (.error ())
        ∧ (getDataFinish (getDataBegin s t now).2 t now2).1
            = some (.error ())
        ∧ (getDataFinish (getDataBegin s t now).2 t now2).2.disk = s.disk) := by
  refine ⟨?_, ?_, ?_⟩
  · intro hp hd
    have hload : loadFromDisk s.disk t = .ok [] := by
      simp only [loadFromDisk, hd]
    rw [getDataBegin_miss s t now hc hp]
    refine ⟨hload, rfl, rfl, ?_, ?_⟩
    · apply getDataFinish_of_pending_ok
      dsimp only
      rw [hload]
      exact mapGet_mapSet_self _ _ _
    · rw [getDataFinish_disk]
  · intro r hp
    rw [getDataBegin_pending s t now hc r hp]
    exact ⟨rfl, rfl⟩
  · intro hp hd
    have hload : loadFromDisk s.disk t = .error () := by
      simp only [loadFromDisk, hd]
    rw [getDataBegin_miss s t now hc hp]
    refine ⟨?_, ?_, ?_⟩
    · dsimp only
      rw [hload]
      exact mapGet_mapSet_self _ _ _
    · apply getDataFinish_of_pending_error
      dsimp only
      rw [hload]
      exact mapGet_mapSet_self _ _ _
    · rw [getDataFinish_disk]

/-- C5 witness: cold read of table "a" against an empty data directory. -/
theorem C5_missing_file_not_error_witness :
    loadFromDisk (init []).disk "a" = .ok []
    ∧ (getDataBegin (init []) "a" 0).1 = .wait
    ∧ (getDataBegin (init []) "a" 0).2.disk = (init []).disk
    ∧ (getDataFinish (getDataBegin (init []) "a" 0).2 "a" 0).1
        = some (.ok [])
    ∧ (getDataFinish (getDataBegin (init []) "a" 0).2 "a" 0).2.disk
        = (init []).disk :=
  (C5_missing_file_not_error (init []) "a" 0 0 (by decide)).1 (by decide)
    (by decide)

end FastStorageProvider

/-!
## Eviction (claim C4)
-/

theorem length_mapSet_le {β : Type} (m : List (String × β)) (k : String)
    (v : β) : (mapSet m k v).length ≤ m.length + 1 := by
  induction m with
  | nil => simp [mapSet]
  | cons p rest ih =>
      by_cases h : p.1 = k
      · simp [mapSet, h]
      · simp only [mapSet, show (p.1 == k) = false by simpa using h,
          Bool.false_eq_true, if_false, List.length_cons]
        omega

theorem foldl_mapDelete_eq_filter {β : Type} (ps : List (String × β))
    (c : List (String × β)) :
    ps.foldl (fun acc p => mapDelete acc p.1) c
      = c.filter (fun q => !(ps.any (fun p => q.1 == p.1))) := by
  induction ps generalizing c with
  | nil => simp
  | cons p ps ih =>
      simp only [List.foldl_cons]
      rw [ih (mapDelete c p.1)]
      unfold mapDelete
      rw [List.filter_filter]
      apply List.filter_congr
      intro q _
      simp only [List.any_cons, Bool.not_or]
      rw [Bool.and_comm]

namespace FastStorageProvider

/-- C4: the cache bound with LRU order.  Starting from a well-formed cache
holding at most 50 tables (an invariant of the engine, whose cache starts
empty and only changes through promotions), any promotion leaves at most
50 cached tables; when the insertion pushes the count above 50, eviction
cuts it down to exactly 40; and an entry that is evicted has a last-access
time no later than that of every entry that remains. -/
theorem C4_eviction_bound (s : FastStorageProvider) (t : String) (d : Snap)
    (now : Nat) (hwf : MapWF s.cache) (hle : s.cache.length ≤ 50) :
    (addToCache s t d now).cache.length ≤ 50
    ∧ ((mapSet s.cache t ⟨d, s.version, now⟩).length > 50 →
        (addToCache s t d now).cache.length = 40)
    ∧ (∀ k e, (k, e) ∈ mapSet s.cache t ⟨d, s.version, now⟩ →
        (k, e) ∉ (addToCache s t d now).cache →
        ∀ k2 e2, (k2, e2) ∈ (addToCache s t d now).cache →
          e.lastAccess ≤ e2.lastAccess) := by
  have hcache : (addToCache s t d now).cache
      = evictIfNeeded (mapSet s.cache t ⟨d, s.version, now⟩) := rfl
  set L := mapSet s.cache t ⟨d, s.version, now⟩ with hL
  set f : String × CacheEntry → Int := fun p => (p.2.lastAccess : Int)
    with hf
  have hwfL : MapWF L := hwf.set t _
  have hLlen : L.length ≤ 51 :=
    le_trans (length_mapSet_le s.cache t _) (by omega)
  by_cases hbig : L.length > 50
  · set E := sortByField f L with hE
    have hperm : E.Perm L := perm_sortByField f L
    have hElen : E.length = L.length := hperm.length_eq
    set toRem := E.take (E.length - 40) with htoRem
    set rest := E.drop (E.length - 40) with hrest
    have hsplit : toRem ++ rest = E := List.take_append_drop _ E
    have hpair : E.Pairwise (fun a b => f a ≤ f b) := pairwise_sortByField f L
    have hcross : ∀ a ∈ toRem, ∀ b ∈ rest, f a ≤ f b := by
      rw [← hsplit] at hpair
      exact (List.pairwise_append.mp hpair).2.2
    have hkeysnodup : (mapKeys E).Nodup := by
      have : (mapKeys E).Perm (mapKeys L) := hperm.map _
      exact this.nodup_iff.mpr hwfL
    have hdisj : ∀ q ∈ toRem, ∀ q2 ∈ rest, q.1 ≠ q2.1 := by
      intro q hq q2 hq2 heq
      have hkeys : mapKeys E = mapKeys toRem ++ mapKeys rest := by
        rw [← hsplit]
        simp [mapKeys]
      rw [hkeys] at hkeysnodup
      have hdj := (List.nodup_append.mp hkeysnodup).2.2
      have hm1 : q.1 ∈ mapKeys toRem := List.mem_map_of_mem (·.1) hq
      have hm2 : q.1 ∈ mapKeys rest := by
        rw [heq]
        exact List.mem_map_of_mem (·.1) hq2
      exact hdj hm1 hm2
    have hevict : evictIfNeeded L
        = L.filter (fun q => !(toRem.any (fun p => q.1 == p.1))) := by
      rw [evictIfNeeded, if_pos hbig]
      exact foldl_mapDelete_eq_filter toRem L
    have hpredRem : ∀ q ∈ toRem,
        (!(toRem.any (fun p => q.1 == p.1))) = false := by
      intro q hq
      have hany : (toRem.any (fun p => q.1 == p.1)) = true :=
        List.any_eq_true.mpr ⟨q, hq, by simp⟩
      rw [hany]
      rfl
    have hpredRest : ∀ q ∈ rest,
        (!(toRem.any (fun p => q.1 == p.1))) = true := by
      intro q hq
      have hany : (toRem.any (fun p => q.1 == p.1)) = false := by
        rw [List.any_eq_false]
        intro p hp hqe
        exact hdisj p hp q hq ((show q.1 = p.1 by simpa using hqe)).symm
      rw [hany]
      rfl
    have hmemE : ∀ q, q ∈ E ↔ q ∈ toRem ∨ q ∈ rest := by
      intro q
      rw [← hsplit, List.mem_append]
    have hlen40 : (evictIfNeeded L).length = 40 := by
      rw [hevict]
      rw [← List.countP_eq_length_filter]
      have hcount : L.countP (fun q => !(toRem.any (fun p => q.1 == p.1)))
          = E.countP (fun q => !(toRem.any (fun p => q.1 == p.1))) :=
        (hperm.countP_eq _).symm
      rw [hcount, ← hsplit, List.countP_append]
      have h0 : toRem.countP (fun q => !(toRem.any (fun p => q.1 == p.1)))
          = 0 := by
        rw [List.countP_eq_zero]
        intro q hq
        simp [hpredRem q hq]
      have hall : rest.countP (fun q => !(toRem.any (fun p => q.1 == p.1)))
          = rest.length := by
        rw [List.countP_eq_length]
        intro q hq
        exact hpredRest q hq
      rw [h0, hall, hrest, List.length_drop]
      omega
    refine ⟨?_, ?_, ?_⟩
    · rw [hcache, hlen40]; omega
    · intro _; rw [hcache]; exact hlen40
    · intro k e hmem hnot k2 e2 hmem2
      rw [hcache, hevict] at hnot hmem2
      have hpredk : (!(toRem.any (fun p => (k, e).1 == p.1))) = false := by
        cases hb : (!(toRem.any (fun p => (k, e).1 == p.1))) with
        | false => rfl
        | true => exact absurd (List.mem_filter.mpr ⟨hmem, hb⟩) hnot
      have hkE : (k, e) ∈ E := hperm.mem_iff.mpr hmem
      have hkRem : (k, e) ∈ toRem := by
        rcases (hmemE (k, e)).mp hkE with h | h
        · exact h
        · exact absurd (hpredRest _ h) (by simp [hpredk])
      have hk2L : (k2, e2) ∈ L := (List.mem_filter.mp hmem2).1
      have hk2pred := (List.mem_filter.mp hmem2).2
      have hk2E : (k2, e2) ∈ E := hperm.mem_iff.mpr hk2L
      have hk2Rest : (k2, e2) ∈ rest := by
        rcases (hmemE (k2, e2)).mp hk2E with h | h
        · exact absurd hk2pred (by simp [hpredRem _ h])
        · exact h
      have := hcross (k, e) hkRem (k2, e2) hk2Rest
      simpa [hf] using this
  · have hsame : evictIfNeeded L = L := by
      rw [evictIfNeeded, if_neg hbig]
    refine ⟨?_, ?_, ?_⟩
    · rw [hcache, hsame]; omega
    · intro hc; exact absurd hc hbig
    · intro k e hmem hnot k2 e2 _
      rw [hcache, hsame] at hnot
      exact absurd hmem hnot

/-- C4 witness: promotion into an empty cache (no eviction needed). -/
theorem C4_eviction_bound_witness :
    (addToCache (init []) "a" [1] 0).cache.length ≤ 50 :=
  (C4_eviction_bound (init []) "a" [1] 0 (by decide) (by decide)).1

end FastStorageProvider

/-!
## Snapshot isolation (claim C9)
-/

theorem readSlots_allocArr_new (h : JSHeap) (slots : List Nat)
    (fr : Bool) :
    readSlots (allocArr h slots fr).1 (allocArr h slots fr).2 = slots := by
  simp [allocArr, readSlots, List.getElem?_concat_length]

theorem isFrozenArr_allocArr_new (h : JSHeap) (slots : List Nat)
    (fr : Bool) :
    isFrozenArr (allocArr h slots fr).1 (allocArr h slots fr).2 = fr := by
  simp [allocArr, isFrozenArr, List.getElem?_concat_length]

theorem readSlots_allocArr_lt (h : JSHeap) (slots : List Nat) (fr : Bool)
    (a : Nat) (ha : a < h.arrs.length) :
    readSlots (allocArr h slots fr).1 a = readSlots h a := by
  unfold allocArr readSlots
  dsimp only
  rw [List.get?_eq_getElem?, List.get?_eq_getElem?,
    List.getElem?_append_left ha]

theorem isFrozenArr_allocArr_lt (h : JSHeap) (slots : List Nat)
    (fr : Bool) (a : Nat) (ha : a < h.arrs.length) :
    isFrozenArr (allocArr h slots fr).1 a = isFrozenArr h a := by
  unfold allocArr isFrozenArr
  dsimp only
  rw [List.get?_eq_getElem?, List.get?_eq_getElem?,
    List.getElem?_append_left ha]

/-- A frozen array's slots survive any single caller-side mutation. -/
theorem applyMut_preserves_frozen_slots (h : JSHeap) (m : JSMut) (a : Nat)
    (hfr : isFrozenArr h a = true) :
    readSlots (applyMut h m) a = readSlots h a
    ∧ isFrozenArr (applyMut h m) a = true := by
  cases m with
  | setSlot a2 i r =>
      by_cases hf2 : isFrozenArr h a2 = true
      · simp [applyMut, hf2, hfr]
      · have hne : a2 ≠ a := fun hh => hf2 (hh ▸ hfr)
        have hw : applyMut h (.setSlot a2 i r)
            = { h with
                arrs := h.arrs.set a2 ((readSlots h a2).set i r, false) } := by
          rw [applyMut, if_neg hf2]
        constructor
        · rw [hw]
          unfold readSlots
          dsimp only
          simp only [List.get?_eq_getElem?]
          rw [List.getElem?_set_ne hne]
        · rw [hw]
          unfold isFrozenArr
          unfold isFrozenArr at hfr
          dsimp only
          simp only [List.get?_eq_getElem?] at hfr ⊢
          rw [List.getElem?_set_ne hne]
          exact hfr
  | setField r v => exact ⟨rfl, hfr⟩

/-- A frozen array's slots survive any sequence of caller-side
mutations. -/
theorem applyMuts_preserves_frozen_slots (muts : List JSMut) (h : JSHeap)
    (a : Nat) (hfr : isFrozenArr h a = true) :
    readSlots (applyMuts h muts) a = readSlots h a
    ∧ isFrozenArr (applyMuts h muts) a = true := by
  induction muts generalizing h with
  | nil => exact ⟨rfl, hfr⟩
  | cons m rest ih =>
      obtain ⟨hrd, hfz⟩ := applyMut_preserves_frozen_slots h m a hfr
      obtain ⟨ihrd, ihfz⟩ := ih (applyMut h m) hfz
      have hcons : applyMuts h (m :: rest)
          = applyMuts (applyMut h m) rest := rfl
      exact ⟨by rw [hcons, ihrd, hrd], by rw [hcons, ihfz]⟩

/-- A record object's contents survive any mutation that is not a field
assignment on that very record. -/
theorem applyMut_preserves_rec (h : JSHeap) (m : JSMut) (r : Nat)
    (hm : ∀ v, m ≠ JSMut.setField r v) :
    readRec (applyMut h m) r = readRec h r := by
  cases m with
  | setSlot a i r2 =>
      by_cases hf : isFrozenArr h a = true
      · have hw : applyMut h (.setSlot a i r2) = h := by
          rw [applyMut, if_pos hf]
        rw [hw]
      · have hw : applyMut h (.setSlot a i r2)
            = { h with
                arrs := h.arrs.set a ((readSlots h a).set i r2, false) } := by
          rw [applyMut, if_neg hf]
        rw [hw]
        rfl
  | setField r2 v =>
      have hne : r2 ≠ r := fun hh => hm v (by rw [hh])
      have hw : applyMut h (.setField r2 v)
          = { h with recs := h.recs.set r2 v } := rfl
      rw [hw]
      unfold readRec
      dsimp only
      simp only [List.get?_eq_getElem?]
      rw [List.getElem?_set_ne hne]

theorem applyMuts_preserves_rec (muts : List JSMut) (h : JSHeap) (r : Nat)
    (hm : ∀ v, JSMut.setField r v ∉ muts) :
    readRec (applyMuts h muts) r = readRec h r := by
  induction muts generalizing h with
  | nil => rfl
  | cons m rest ih =>
      have h1 : readRec (applyMut h m) r = readRec h r :=
        applyMut_preserves_rec h m r
          (fun v hv => hm v (hv ▸ List.mem_cons_self m rest))
      have hrest : ∀ v, JSMut.setField r v ∉ rest :=
        fun v hv => hm v (List.mem_cons_of_mem m hv)
      have hcons : applyMuts h (m :: rest)
          = applyMuts (applyMut h m) rest := rfl
      rw [hcons, ih (applyMut h m) hrest, h1]

/-- C9, counterexample to the claim as stated: the copies taken at
promotion (line 114) and on cache hits (line 53) are shallow, so the
record objects stay shared with the caller, and `Object.freeze` does not
freeze them.  Starting from a heap with one record (contents `7`) and the
caller's array `0` referencing it, the promotion stores the frozen
shallow copy; the caller then mutates that record through the array it
passed to `saveData` (`arr[0].field = 99`), and the snapshot content held
in the cache changes from `[7]` to `[99]` — a later `getData` no longer
returns the records that were stored. -/
theorem C9_counterexample :
    readSnap (promoteCopy ⟨[([0], false)], [7]⟩ 0).1
      (promoteCopy ⟨[([0], false)], [7]⟩ 0).2 = [7]
    ∧ readSnap (applyMut (promoteCopy ⟨[([0], false)], [7]⟩ 0).1
        (JSMut.setField 0 99))
      (promoteCopy ⟨[([0], false)], [7]⟩ 0).2 = [99]
    ∧ ([99] : Snap) ≠ [7] := by decide

/-- C9, amended: every promotion stores a frozen shallow copy of the
given array and every cache hit returns a fresh shallow copy, so no
caller-side mutation — of the array passed to `saveData`, of an array
returned from `getData`, or of any other array — can change which records
the cached snapshot holds (its sequence of record references), and a
later cache hit hands back exactly the stored record sequence; the copy a
cache hit returns shows the stored content at the time of the hit.
Because the copies are shallow the protection stops at the array: the
record objects remain shared and unfrozen, and the cached snapshot's
observed content is guaranteed unchanged only under mutations that do not
assign fields of the records the snapshot references. -/
theorem C9_cache_snapshot_isolation_amended (h : JSHeap) (dataRef : Nat)
    (muts : List JSMut) :
    readSlots (applyMuts
        (cacheHitCopy (promoteCopy h dataRef).1
          (promoteCopy h dataRef).2).1 muts)
      (promoteCopy h dataRef).2 = readSlots h dataRef
    ∧ readSlots (cacheHitCopy (applyMuts
          (cacheHitCopy (promoteCopy h dataRef).1
            (promoteCopy h dataRef).2).1 muts)
          (promoteCopy h dataRef).2).1
        (cacheHitCopy (applyMuts
          (cacheHitCopy (promoteCopy h dataRef).1
            (promoteCopy h dataRef).2).1 muts)
          (promoteCopy h dataRef).2).2 = readSlots h dataRef
    ∧ readSnap (cacheHitCopy (promoteCopy h dataRef).1
          (promoteCopy h dataRef).2).1
        (cacheHitCopy (promoteCopy h dataRef).1
          (promoteCopy h dataRef).2).2 = readSnap h dataRef
    ∧ ((∀ r ∈ readSlots h dataRef, ∀ v, JSMut.setField r v ∉ muts) →
        readSnap (applyMuts
          (cacheHitCopy (promoteCopy h dataRef).1
            (promoteCopy h dataRef).2).1 muts)
          (promoteCopy h dataRef).2 = readSnap h dataRef) := by
  have hslots1 : readSlots (promoteCopy h dataRef).1
      (promoteCopy h dataRef).2 = readSlots h dataRef :=
    readSlots_allocArr_new h _ true
  have hfr1 : isFrozenArr (promoteCopy h dataRef).1
      (promoteCopy h dataRef).2 = true :=
    isFrozenArr_allocArr_new h _ true
  have hlt : (promoteCopy h dataRef).2
      < (promoteCopy h dataRef).1.arrs.length := by
    simp [promoteCopy, allocArr]
  have hslots2 : readSlots (cacheHitCopy (promoteCopy h dataRef).1
      (promoteCopy h dataRef).2).1 (promoteCopy h dataRef).2
      = readSlots h dataRef := by
    rw [cacheHitCopy, readSlots_allocArr_lt _ _ _ _ hlt]
    exact hslots1
  have hfr2 : isFrozenArr (cacheHitCopy (promoteCopy h dataRef).1
      (promoteCopy h dataRef).2).1 (promoteCopy h dataRef).2 = true := by
    rw [cacheHitCopy, isFrozenArr_allocArr_lt _ _ _ _ hlt]
    exact hfr1
  obtain ⟨hS, _⟩ := applyMuts_preserves_frozen_slots muts _ _ hfr2
  refine ⟨?_, ?_, ?_, ?_⟩
  · rw [hS, hslots2]
  · rw [cacheHitCopy, readSlots_allocArr_new, hS, hslots2]
  · unfold readSnap
    rw [show readSlots (cacheHitCopy (promoteCopy h dataRef).1
        (promoteCopy h dataRef).2).1
        (cacheHitCopy (promoteCopy h dataRef).1
          (promoteCopy h dataRef).2).2 = readSlots h dataRef from by
      rw [cacheHitCopy, readSlots_allocArr_new]
      exact hslots1]
    apply List.map_congr_left
    intro r _
    rfl
  · intro hno
    unfold readSnap
    rw [hS, hslots2]
    apply List.map_congr_left
    intro r hr
    have h1 := applyMuts_preserves_rec muts
      (cacheHitCopy (promoteCopy h dataRef).1
        (promoteCopy h dataRef).2).1 r (fun v hv => hno r hr v hv)
    rw [h1]
    rfl

/-- C9 amended, witness: a slot write against the caller's own array
leaves the cached snapshot content unchanged. -/
theorem C9_cache_snapshot_isolation_amended_witness :
    readSnap (applyMuts
      (cacheHitCopy (promoteCopy ⟨[([0], false)], [7]⟩ 0).1
        (promoteCopy ⟨[([0], false)], [7]⟩ 0).2).1
      [JSMut.setSlot 0 0 0])
      (promoteCopy ⟨[([0], false)], [7]⟩ 0).2
      = readSnap ⟨[([0], false)], [7]⟩ 0 :=
  (C9_cache_snapshot_isolation_amended ⟨[([0], false)], [7]⟩ 0
    [JSMut.setSlot 0 0 0]).2.2.2
    (by
      intro r hr v hv
      simp at hv)

/-!
## Read-your-own-write (claim C1)
-/

namespace FastStorageProvider

theorem wf_evict {c : List (String × CacheEntry)} (hwf : MapWF c) :
    MapWF (evictIfNeeded c) := by
  unfold evictIfNeeded
  split
  · rw [foldl_mapDelete_eq_filter]
    exact hwf.flt _
  · exact hwf

theorem mapGet_evictIfNeeded (c : List (String × CacheEntry)) (T : String)
    (e : CacheEntry) (hwf : MapWF c) (hget : mapGet c T = some e) :
    mapGet (evictIfNeeded c) T = some e
    ∨ mapGet (evictIfNeeded c) T = none := by
  unfold evictIfNeeded
  split
  · rw [foldl_mapDelete_eq_filter]
    rw [mapGet_filter hwf _ T hget]
    split
    · exact Or.inl rfl
    · exact Or.inr rfl
  · exact Or.inl hget

theorem cache_promote_preserve (c : List (String × CacheEntry))
    (u : String) (x : CacheEntry) (T : String) (e : CacheEntry)
    (hwf : MapWF c) (hne : u ≠ T) (hget : mapGet c T = some e)
    (hcached : (mapGet (evictIfNeeded (mapSet c u x)) T).isSome) :
    mapGet (evictIfNeeded (mapSet c u x)) T = some e := by
  have h1 : mapGet (mapSet c u x) T = some e := by
    rw [mapGet_mapSet_ne _ _ _ _ hne]
    exact hget
  rcases mapGet_evictIfNeeded _ T e (hwf.set u x) h1 with h | h
  · exact h
  · rw [h] at hcached
    exact absurd hcached (by simp)

theorem getDataBegin_hit (s : FastStorageProvider) (t : String) (now : Nat)
    (e : CacheEntry) (hc : mapGet s.cache t = some e) :
    getDataBegin s t now = (.val (.ok e.data),
      { s with cache := mapSet s.cache t { e with lastAccess := now } }) := by
  simp only [getDataBegin, hc]

theorem saveData_cache (s : FastStorageProvider) (t : String) (d : Snap)
    (now : Nat) : (saveData s t d now).cache
      = evictIfNeeded (mapSet s.cache t ⟨d, s.version + 1, now⟩) := rfl

theorem saveData_pendingReads (s : FastStorageProvider) (t : String)
    (d : Snap) (now : Nat) :
    (saveData s t d now).pendingReads = s.pendingReads := rfl

/-- The cache-coherence invariant behind claim C1: table `T` is cached
with snapshot content `S` and no disk load of `T` is in flight. -/
def CacheHolds (s : FastStorageProvider) (T : String) (S : Snap) : Prop :=
  MapWF s.cache ∧ MapWF s.pendingReads
  ∧ (∃ e, mapGet s.cache T = some e ∧ e.data = S)
  ∧ mapGet s.pendingReads T = none

theorem cacheHolds_step (s : FastStorageProvider) (T : String) (S : Snap)
    (op : Op) (hD : CacheHolds s T S)
    (hnw : ∀ d n, op ≠ Op.save T d n)
    (hcached : (mapGet (step s op).cache T).isSome) :
    CacheHolds (step s op) T S := by
  obtain ⟨hwfc, hwfp, ⟨e, hget, hdata⟩, hpend⟩ := hD
  cases op with
  | save u d n =>
      have hne : u ≠ T := fun hh => hnw d n (by rw [hh])
      rw [step] at hcached ⊢
      refine ⟨?_, ?_, ⟨e, ?_, hdata⟩, ?_⟩
      · rw [saveData_cache]
        exact wf_evict (hwfc.set u _)
      · rw [saveData_pendingReads]
        exact hwfp
      · rw [saveData_cache]
        rw [saveData_cache] at hcached
        exact cache_promote_preserve _ u _ T e hwfc hne hget hcached
      · rw [saveData_pendingReads]
        exact hpend
  | getBegin u n =>
      rw [step] at hcached ⊢
      cases hc : mapGet s.cache u with
      | some e2 =>
          rw [getDataBegin_hit s u n e2 hc] at hcached ⊢
          dsimp only at hcached ⊢
          by_cases hu : u = T
          · subst hu
            have he : e2 = e := by
              rw [hget] at hc
              injection hc with hh
              exact hh.symm
            subst he
            refine ⟨hwfc.set u _, hwfp, ⟨{ e2 with lastAccess := n },
              mapGet_mapSet_self _ _ _, hdata⟩, hpend⟩
          · refine ⟨hwfc.set u _, hwfp, ⟨e, ?_, hdata⟩, hpend⟩
            rw [mapGet_mapSet_ne _ _ _ _ hu]
            exact hget
      | none =>
          have hu : u ≠ T := fun hh => by
            rw [hh, hget] at hc
            exact Option.noConfusion hc
          cases hp : mapGet s.pendingReads u with
          | some r =>
              rw [getDataBegin_pending s u n hc r hp] at hcached ⊢
              exact ⟨hwfc, hwfp, ⟨e, hget, hdata⟩, hpend⟩
          | none =>
              rw [getDataBegin_miss s u n hc hp] at hcached ⊢
              dsimp only at hcached ⊢
              refine ⟨hwfc, hwfp.set u _, ⟨e, hget, hdata⟩, ?_⟩
              rw [mapGet_mapSet_ne _ _ _ _ hu]
              exact hpend
  | getFinish u n =>
      rw [step] at hcached ⊢
      cases hp : mapGet s.pendingReads u with
      | none =>
          have hfin : getDataFinish s u n = (none, s) := by
            simp only [getDataFinish, hp]
          rw [hfin] at hcached ⊢
          exact ⟨hwfc, hwfp, ⟨e, hget, hdata⟩, hpend⟩
      | some r =>
          have hu : u ≠ T := fun hh => by
            rw [hh, hpend] at hp
            exact Option.noConfusion hp
          have hpd : mapGet (mapDelete s.pendingReads u) T = none := by
            rw [mapGet_mapDelete_ne _ _ _ hu]
            exact hpend
          cases r with
          | error err =>
              have hfin : getDataFinish s u n = (some (.error err),
                  { s with pendingReads := mapDelete s.pendingReads u }) := by
                simp only [getDataFinish, hp]
              rw [hfin] at hcached ⊢
              exact ⟨hwfc, hwfp.del u, ⟨e, hget, hdata⟩, hpd⟩
          | ok data =>
              by_cases hreads : (mapGet s.readCounts u).getD 0 + 1 ≥ 10
              · have hfin : (getDataFinish s u n).2
                    = addToCache
                        { s with
                          pendingReads := mapDelete s.pendingReads u,
                          readCounts := mapSet s.readCounts u
                            ((mapGet s.readCounts u).getD 0 + 1) }
                        u data n := by
                  simp only [getDataFinish, hp]
                  rw [if_pos hreads]
                rw [hfin] at hcached ⊢
                unfold addToCache
                unfold addToCache at hcached
                dsimp only at hcached ⊢
                refine ⟨wf_evict (hwfc.set u _), hwfp.del u,
                  ⟨e, ?_, hdata⟩, hpd⟩
                exact cache_promote_preserve _ u _ T e hwfc hu hget hcached
              · have hfin : (getDataFinish s u n).2
                    = { s with
                        pendingReads := mapDelete s.pendingReads u,
                        readCounts := mapSet s.readCounts u
                          ((mapGet s.readCounts u).getD 0 + 1) } := by
                  simp only [getDataFinish, hp]
                  rw [if_neg hreads]
                rw [hfin] at hcached ⊢
                exact ⟨hwfc, hwfp.del u, ⟨e, hget, hdata⟩, hpd⟩
  | flushTimer fails =>
      rw [step] at hcached ⊢
      by_cases ht : s.writeTimer = true
      · rw [if_pos ht] at hcached ⊢
        exact ⟨hwfc, hwfp, ⟨e, hget, hdata⟩, hpend⟩
      · rw [if_neg ht] at hcached ⊢
        exact ⟨hwfc, hwfp, ⟨e, hget, hdata⟩, hpend⟩
  | closeOp fails =>
      rw [step] at hcached ⊢
      by_cases ht : s.writeTimer = true
      · by_cases hr : flushResolves s fails = true
        · exfalso
          have hnone : mapGet (close s fails).cache T = none := by
            simp [close, ht, hr, mapGet]
          rw [hnone] at hcached
          exact absurd hcached (by simp)
        · have hcl : close s fails = flushWrites s fails := by
            simp [close, ht, hr]
          rw [hcl]
          exact ⟨hwfc, hwfp, ⟨e, hget, hdata⟩, hpend⟩
      · exfalso
        have hnone : mapGet (close s fails).cache T = none := by
          simp [close, ht, mapGet]
        rw [hnone] at hcached
        exact absurd hcached (by simp)

theorem cacheHolds_run (ops : List Op) (s : FastStorageProvider)
    (T : String) (S : Snap) (hD : CacheHolds s T S)
    (hnw : ∀ op ∈ ops, ∀ d n, op ≠ Op.save T d n)
    (hcached : ∀ k, k ≤ ops.length →
      (mapGet (run s (ops.take k)).cache T).isSome) :
    CacheHolds (run s ops) T S := by
  induction ops generalizing s with
  | nil => exact hD
  | cons op rest ih =>
      have hstep : CacheHolds (step s op) T S := by
        apply cacheHolds_step s T S op hD
          (hnw op (List.mem_cons_self op rest))
        have := hcached 1 (by simp)
        simpa [run] using this
      have hrun : run s (op :: rest) = run (step s op) rest := rfl
      rw [hrun]
      apply ih (step s op) hstep
      · intro o ho d n
        exact hnw o (List.mem_cons_of_mem op ho) d n
      · intro k hk
        have := hcached (k + 1) (by simpa using Nat.succ_le_succ hk)
        simpa [run, List.take_succ_cons] using this

/-- C1, amended: once `saveData(T, S)` has resolved, a `getData(T)` issued
before any later write to `T` returns an array structurally equal to `S`,
immediately from the cache, provided (i) no disk load of `T` was in flight
when the write was issued and (ii) `T`'s cache entry stays present
throughout (it is not evicted by later promotions and the provider is not
closed).  Both provisos are necessary: see the counterexample. -/
theorem C1_read_your_write_amended (s : FastStorageProvider) (T : String)
    (S : Snap) (now0 : Nat) (ops : List Op) (now1 : Nat)
    (hwfc : MapWF s.cache) (hwfp : MapWF s.pendingReads)
    (hpend : mapGet s.pendingReads T = none)
    (hnw : ∀ op ∈ ops, ∀ d n, op ≠ Op.save T d n)
    (hlive : ∀ k, k ≤ ops.length →
      (mapGet (run (saveData s T S now0) (ops.take k)).cache T).isSome) :
    (getDataBegin (run (saveData s T S now0) ops) T now1).1
      = .val (.ok S)
    ∧ ∃ e, mapGet (run (saveData s T S now0) ops).cache T = some e
        ∧ e.data = S := by
  have hD0 : CacheHolds (saveData s T S now0) T S := by
    have hset : mapGet (mapSet s.cache T ⟨S, s.version + 1, now0⟩) T
        = some ⟨S, s.version + 1, now0⟩ := mapGet_mapSet_self _ _ _
    have hcached0 : (mapGet (saveData s T S now0).cache T).isSome := by
      have := hlive 0 (by simp)
      simpa [run] using this
    refine ⟨?_, ?_, ⟨⟨S, s.version + 1, now0⟩, ?_, rfl⟩, ?_⟩
    · rw [saveData_cache]
      exact wf_evict (hwfc.set T _)
    · rw [saveData_pendingReads]
      exact hwfp
    · rw [saveData_cache]
      rw [saveData_cache] at hcached0
      rcases mapGet_evictIfNeeded _ T _ (hwfc.set T _) hset with h | h
      · exact h
      · rw [h] at hcached0
        exact absurd hcached0 (by simp)
    · rw [saveData_pendingReads]
      exact hpend
  have hD := cacheHolds_run ops (saveData s T S now0) T S hD0 hnw hlive
  obtain ⟨_, _, ⟨e, hget, hdata⟩, _⟩ := hD
  constructor
  · rw [getDataBegin_hit _ T now1 e hget]
    rw [hdata]
  · exact ⟨e, hget, hdata⟩

/-- C1 amended, witness: a write immediately followed by a read. -/
theorem C1_read_your_write_amended_witness :
    (getDataBegin (run (saveData (init []) "a" [5] 0) []) "a" 1).1
      = .val (.ok [5])
    ∧ ∃ e, mapGet (run (saveData (init []) "a" [5] 0) []).cache "a" = some e
        ∧ e.data = [5] :=
  C1_read_your_write_amended (init []) "a" [5] 0 [] 1 (by decide) (by decide)
    (by decide) (by intro op ho; exact absurd ho (by simp))
    (by
      intro k hk
      have hk0 : k = 0 := Nat.le_zero.mp hk
      subst hk0
      decide)

end FastStorageProvider

namespace FastStorageProvider

/-- C1, counterexample to the claim as stated: the disk holds `[7]` for
table "a"; nine completed cold reads bring the read count to 9; a tenth
read begins (registering an in-flight load of the stale disk snapshot),
then `saveData("a", [99])` resolves, then the in-flight load completes —
reaching the hot threshold it promotes the stale `[7]` over the fresh
write.  The following `getData("a")`, issued after the save resolved and
with no later write to "a" anywhere in the trace, returns `[7]`, not
`[99]`. -/
theorem C1_counterexample :
    (getDataBegin (run (init [("a", FileContent.ok [7])])
      [Op.getBegin "a" 0, Op.getFinish "a" 0,
       Op.getBegin "a" 0, Op.getFinish "a" 0,
       Op.getBegin "a" 0, Op.getFinish "a" 0,
       Op.getBegin "a" 0, Op.getFinish "a" 0,
       Op.getBegin "a" 0, Op.getFinish "a" 0,
       Op.getBegin "a" 0, Op.getFinish "a" 0,
       Op.getBegin "a" 0, Op.getFinish "a" 0,
       Op.getBegin "a" 0, Op.getFinish "a" 0,
       Op.getBegin "a" 0, Op.getFinish "a" 0,
       Op.getBegin "a" 0, Op.save "a" [99] 0, Op.getFinish "a" 0])
      "a" 1).1 = .val (.ok [7])
    ∧ GetOut.val (.ok ([7] : Snap)) ≠ GetOut.val (.ok ([99] : Snap)) := by
  decide

end FastStorageProvider

/-!
## Binary search over a sorted index (claims C7, C8)
-/

/-- In a list sorted by `f`, a predicate that is downward closed along `f`
holds exactly on the prefix of length `countP`. -/
theorem sorted_char {α : Type} [Inhabited α] (f : α → Int) (p : α → Bool)
    (hmono : ∀ a b, f a ≤ f b → p b = true → p a = true) (arr : List α) :
    arr.Pairwise (fun a b => f a ≤ f b) →
    ∀ i, i < arr.length →
      (p (arr.getD i default) = true ↔ i < arr.countP p) := by
  induction arr with
  | nil =>
      intro _ i hi
      simp at hi
  | cons a l ih =>
      intro hs i hi
      rw [List.pairwise_cons] at hs
      obtain ⟨ha, hl⟩ := hs
      cases i with
      | zero =>
          show p a = true ↔ 0 < (a :: l).countP p
          by_cases hpa : p a = true
          · simp [List.countP_cons, hpa]
          · have hzero : l.countP p = 0 := by
              rw [List.countP_eq_zero]
              intro b hb hpb
              exact hpa (hmono a b (ha b hb) hpb)
            simp [List.countP_cons, hpa, hzero]
      | succ i =>
          have hi2 : i < l.length := by simpa using hi
          have hIH := ih hl i hi2
          show p (l.getD i default) = true ↔ i + 1 < (a :: l).countP p
          by_cases hpa : p a = true
          · rw [hIH]
            simp only [List.countP_cons, hpa, if_true]
            omega
          · have hzero : l.countP p = 0 := by
              rw [List.countP_eq_zero]
              intro b hb hpb
              exact hpa (hmono a b (ha b hb) hpb)
            have hmem : l.getD i default ∈ l := by
              rw [List.getD_eq_getElem l default hi2]
              exact List.getElem_mem hi2
            have hfalse := List.countP_eq_zero.mp hzero _ hmem
            constructor
            · intro hc
              exact absurd hc hfalse
            · intro hc
              simp [List.countP_cons, hpa, hzero] at hc

/-- One unfolding of the `binarySearch` loop. -/
theorem binarySearchGo_succ {α : Type} [Inhabited α] (arr : List α)
    (f : α → Int) (v : Int) (ff : Bool) (n : Nat) (left right result : Int) :
    binarySearchGo arr f v ff (n + 1) left right result
      = if left ≤ right then
          (if ff then
            (if v ≤ f (arr.getD ((left + right) / 2).toNat default) then
              binarySearchGo arr f v ff n left ((left + right) / 2 - 1)
                ((left + right) / 2)
            else
              binarySearchGo arr f v ff n ((left + right) / 2 + 1) right
                result)
          else
            (if f (arr.getD ((left + right) / 2).toNat default) ≤ v then
              binarySearchGo arr f v ff n ((left + right) / 2 + 1) right
                ((left + right) / 2)
            else
              binarySearchGo arr f v ff n left ((left + right) / 2 - 1)
                result))
        else result := rfl

/-- Loop invariant argument for the `findFirst` search: the result is the
number of records strictly below `v`. -/
theorem binarySearchGo_first_eq {α : Type} [Inhabited α] (arr : List α)
    (f : α → Int) (v : Int)
    (hs : arr.Pairwise (fun a b => f a ≤ f b)) :
    ∀ (fuel : Nat) (left right result : Int),
      (right + 1 - left).toNat < fuel →
      0 ≤ left → right < (arr.length : Int) → left ≤ right + 1 →
      left ≤ (arr.countP (fun x => decide (f x < v)) : Int) →
      (arr.countP (fun x => decide (f x < v)) : Int) ≤ right + 1 →
      result = min (arr.length : Int)
        (max (right + 1) (arr.countP (fun x => decide (f x < v)) : Int)) →
      binarySearchGo arr f v true fuel left right result
        = (arr.countP (fun x => decide (f x < v)) : Int) := by
  have hclen : arr.countP (fun x => decide (f x < v)) ≤ arr.length :=
    List.countP_le_length _
  have hmono : ∀ a b, f a ≤ f b → (decide (f b < v)) = true →
      (decide (f a < v)) = true := by
    intro a b hab hb
    rw [decide_eq_true_eq] at hb ⊢
    omega
  intro fuel
  induction fuel with
  | zero =>
      intro left right result hfuel h0 hrlen hlr hlc hcr hres
      omega
  | succ n ih =>
      intro left right result hfuel h0 hrlen hlr hlc hcr hres
      rw [binarySearchGo_succ]
      by_cases hle : left ≤ right
      · rw [if_pos hle, if_pos rfl]
        have hmid1 : left ≤ (left + right) / 2 := by omega
        have hmid2 : (left + right) / 2 ≤ right := by omega
        have hmidlen : ((left + right) / 2).toNat < arr.length := by omega
        have htonat : (((left + right) / 2).toNat : Int)
            = (left + right) / 2 := Int.toNat_of_nonneg (by omega)
        have hchar := sorted_char f (fun x => decide (f x < v)) hmono arr hs
          ((left + right) / 2).toNat hmidlen
        by_cases hcmp :
            v ≤ f (arr.getD ((left + right) / 2).toNat default)
        · rw [if_pos hcmp]
          have hnotlt :
              ¬ (decide (f (arr.getD ((left + right) / 2).toNat default)
                < v) = true) := by
            rw [decide_eq_true_eq]
            omega
          have hge : (arr.countP (fun x => decide (f x < v)) : Int)
              ≤ (left + right) / 2 := by
            have := (not_congr hchar).mp hnotlt
            omega
          apply ih
          · omega
          · omega
          · omega
          · omega
          · omega
          · omega
          · omega
        · rw [if_neg hcmp]
          have hlt :
              (decide (f (arr.getD ((left + right) / 2).toNat default)
                < v) = true) := by
            rw [decide_eq_true_eq]
            omega
          have hlt2 : ((left + right) / 2)
              < (arr.countP (fun x => decide (f x < v)) : Int) := by
            have := hchar.mp hlt
            omega
          apply ih
          · omega
          · omega
          · omega
          · omega
          · omega
          · omega
          · omega
      · rw [if_neg hle]
        omega

/-- Loop invariant argument for the `findLast` search: the result is one
less than the number of records not above `v`. -/
theorem binarySearchGo_last_eq {α : Type} [Inhabited α] (arr : List α)
    (f : α → Int) (v : Int)
    (hs : arr.Pairwise (fun a b => f a ≤ f b)) :
    ∀ (fuel : Nat) (left right result : Int),
      (right + 1 - left).toNat < fuel →
      0 ≤ left → right < (arr.length : Int) → left ≤ right + 1 →
      left ≤ (arr.countP (fun x => decide (f x ≤ v)) : Int) →
      (arr.countP (fun x => decide (f x ≤ v)) : Int) ≤ right + 1 →
      result = max (-1)
        (min left (arr.countP (fun x => decide (f x ≤ v)) : Int) - 1) →
      binarySearchGo arr f v false fuel left right result
        = (arr.countP (fun x => decide (f x ≤ v)) : Int) - 1 := by
  have hmono : ∀ a b, f a ≤ f b → (decide (f b ≤ v)) = true →
      (decide (f a ≤ v)) = true := by
    intro a b hab hb
    rw [decide_eq_true_eq] at hb ⊢
    omega
  intro fuel
  induction fuel with
  | zero =>
      intro left right result hfuel h0 hrlen hlr hld hdr hres
      omega
  | succ n ih =>
      intro left right result hfuel h0 hrlen hlr hld hdr hres
      rw [binarySearchGo_succ]
      by_cases hle : left ≤ right
      · rw [if_pos hle, if_neg (by simp)]
        have hmid1 : left ≤ (left + right) / 2 := by omega
        have hmid2 : (left + right) / 2 ≤ right := by omega
        have hmidlen : ((left + right) / 2).toNat < arr.length := by omega
        have htonat : (((left + right) / 2).toNat : Int)
            = (left + right) / 2 := Int.toNat_of_nonneg (by omega)
        have hchar := sorted_char f (fun x => decide (f x ≤ v)) hmono arr hs
          ((left + right) / 2).toNat hmidlen
        by_cases hcmp :
            f (arr.getD ((left + right) / 2).toNat default) ≤ v
        · rw [if_pos hcmp]
          have hisle :
              (decide (f (arr.getD ((left + right) / 2).toNat default)
                ≤ v) = true) := by
            rw [decide_eq_true_eq]
            omega
          have hlt2 : ((left + right) / 2)
              < (arr.countP (fun x => decide (f x ≤ v)) : Int) := by
            have := hchar.mp hisle
            omega
          apply ih
          · omega
          · omega
          · omega
          · omega
          · omega
          · omega
          · omega
        · rw [if_neg hcmp]
          have hnotle :
              ¬ (decide (f (arr.getD ((left + right) / 2).toNat default)
                ≤ v) = true) := by
            rw [decide_eq_true_eq]
            omega
          have hge : (arr.countP (fun x => decide (f x ≤ v)) : Int)
              ≤ (left + right) / 2 := by
            have := (not_congr hchar).mp hnotle
            omega
          apply ih
          · omega
          · omega
          · omega
          · omega
          · omega
          · omega
          · omega
      · rw [if_neg hle]
        omega

/-- `binarySearch(arr, field, v, true)` on a sorted array computes the
count of records strictly below `v` — that is, the smallest index whose
field is at least `v`, or `arr.length` when there is none. -/
theorem binarySearch_first_eq {α : Type} [Inhabited α] (arr : List α)
    (f : α → Int) (v : Int)
    (hs : arr.Pairwise (fun a b => f a ≤ f b)) :
    binarySearch arr f v true
      = (arr.countP (fun x => decide (f x < v)) : Int) := by
  have hclen : arr.countP (fun x => decide (f x < v)) ≤ arr.length :=
    List.countP_le_length _
  apply binarySearchGo_first_eq arr f v hs (arr.length + 1) 0
    ((arr.length : Int) - 1) (arr.length : Int)
  · omega
  · omega
  · omega
  · omega
  · omega
  · omega
  · omega

/-- `binarySearch(arr, field, v, false)` on a sorted array computes one
less than the count of records not above `v` — that is, the largest index
whose field is at most `v`, or `-1` when there is none. -/
theorem binarySearch_last_eq {α : Type} [Inhabited α] (arr : List α)
    (f : α → Int) (v : Int)
    (hs : arr.Pairwise (fun a b => f a ≤ f b)) :
    binarySearch arr f v false
      = (arr.countP (fun x => decide (f x ≤ v)) : Int) - 1 := by
  have hclen : arr.countP (fun x => decide (f x ≤ v)) ≤ arr.length :=
    List.countP_le_length _
  apply binarySearchGo_last_eq arr f v hs (arr.length + 1) 0
    ((arr.length : Int) - 1) (-1)
  · omega
  · omega
  · omega
  · omega
  · omega
  · omega
  · omega

/-- On a sorted array, the contiguous block between the two binary-search
boundaries is exactly the linear filter of the range predicate. -/
theorem sorted_dropTake_eq_filter {α : Type} (f : α → Int) (lo hi : Int)
    (arr : List α) :
    arr.Pairwise (fun a b => f a ≤ f b) →
    (arr.drop (arr.countP (fun x => decide (f x < lo)))).take
        (arr.countP (fun x => decide (f x ≤ hi))
          - arr.countP (fun x => decide (f x < lo)))
      = arr.filter (fun x => lo ≤ f x && f x ≤ hi) := by
  induction arr with
  | nil => intro _; rfl
  | cons a l ih =>
      intro hs
      rw [List.pairwise_cons] at hs
      obtain ⟨ha, hl⟩ := hs
      have IH := ih hl
      by_cases hlt : f a < lo
      · have hpa : (decide (f a < lo)) = true := by
          rw [decide_eq_true_eq]; exact hlt
        have hloa : (decide (lo ≤ f a)) = false := by
          rw [decide_eq_false_iff_not]; omega
        by_cases hle : f a ≤ hi
        · have hqa : (decide (f a ≤ hi)) = true := by
            rw [decide_eq_true_eq]; exact hle
          simp only [List.filter_cons, List.countP_cons, hpa, hqa, hloa,
            Bool.false_and, Bool.false_eq_true, if_false, if_true]
          rw [Nat.add_sub_add_right, List.drop_succ_cons]
          exact IH
        · have hq0 : l.countP (fun x => decide (f x ≤ hi)) = 0 := by
            rw [List.countP_eq_zero]
            intro b hb hpb
            rw [decide_eq_true_eq] at hpb
            have := ha b hb
            omega
          have hqa : (decide (f a ≤ hi)) = false := by
            rw [decide_eq_false_iff_not]; exact hle
          have hfl : l.filter (fun x => lo ≤ f x && f x ≤ hi) = [] := by
            rw [List.filter_eq_nil_iff]
            intro b hb
            have := ha b hb
            have hd : (decide (f b ≤ hi)) = false := by
              rw [decide_eq_false_iff_not]; omega
            simp [hd]
          simp only [List.filter_cons, List.countP_cons, hpa, hqa, hloa, hq0,
            Bool.false_and, Bool.false_eq_true, if_false, if_true, hfl]
          simp
      · have hpa : (decide (f a < lo)) = false := by
          rw [decide_eq_false_iff_not]; exact hlt
        have hloa : (decide (lo ≤ f a)) = true := by
          rw [decide_eq_true_eq]; omega
        have hp0 : l.countP (fun x => decide (f x < lo)) = 0 := by
          rw [List.countP_eq_zero]
          intro b hb hpb
          rw [decide_eq_true_eq] at hpb
          have := ha b hb
          omega
        by_cases hle : f a ≤ hi
        · have hqa : (decide (f a ≤ hi)) = true := by
            rw [decide_eq_true_eq]; exact hle
          simp only [List.filter_cons, List.countP_cons, hpa, hqa, hloa, hp0,
            Bool.true_and, Bool.false_eq_true, if_false, if_true]
          rw [Nat.add_zero, Nat.sub_zero, List.drop_zero, List.take_succ_cons]
          have IH2 := IH
          rw [hp0, List.drop_zero, Nat.sub_zero] at IH2
          rw [IH2]
        · have hq0 : l.countP (fun x => decide (f x ≤ hi)) = 0 := by
            rw [List.countP_eq_zero]
            intro b hb hpb
            rw [decide_eq_true_eq] at hpb
            have := ha b hb
            omega
          have hqa : (decide (f a ≤ hi)) = false := by
            rw [decide_eq_false_iff_not]; omega
          have hfl : l.filter (fun x => lo ≤ f x && f x ≤ hi) = [] := by
            rw [List.filter_eq_nil_iff]
            intro b hb
            have := ha b hb
            have hd : (decide (f b ≤ hi)) = false := by
              rw [decide_eq_false_iff_not]; omega
            simp [hd]
          simp only [List.filter_cons, List.countP_cons, hpa, hqa, hloa, hq0,
            hp0, Bool.true_and, Bool.false_eq_true, if_false, if_true, hfl]
          simp

/-- C8: on an array sorted ascending by the field, `binarySearch` with
`findFirst = true` returns the smallest index whose field value is at
least `v` (`arr.length` when none), with `findFirst = false` the largest
index whose field value is at most `v` (`-1` when none); hence the slice
`queryRange` takes between the two boundaries is exactly the set of
records whose field lies in `[lo, hi]`, in index order, and is empty when
no record lies in the range. -/
theorem C8_binary_search_boundaries {α : Type} [Inhabited α]
    (arr : List α) (f : α → Int) (v lo hi : Int)
    (hs : arr.Pairwise (fun a b => f a ≤ f b)) :
    (0 ≤ binarySearch arr f v true
      ∧ binarySearch arr f v true ≤ arr.length)
    ∧ (∀ i : Nat, i < arr.length →
        ((i : Int) < binarySearch arr f v true
          ↔ f (arr.getD i default) < v))
    ∧ (-1 ≤ binarySearch arr f v false
      ∧ binarySearch arr f v false < arr.length)
    ∧ (∀ i : Nat, i < arr.length →
        ((i : Int) ≤ binarySearch arr f v false
          ↔ f (arr.getD i default) ≤ v))
    ∧ jsSlice arr (binarySearch arr f lo true)
        (binarySearch arr f hi false + 1)
        = arr.filter (fun x => lo ≤ f x && f x ≤ hi)
    ∧ ((∀ x ∈ arr, ¬(lo ≤ f x ∧ f x ≤ hi)) →
        jsSlice arr (binarySearch arr f lo true)
          (binarySearch arr f hi false + 1) = []) := by
  have hfirst := binarySearch_first_eq arr f v hs
  have hlast := binarySearch_last_eq arr f v hs
  have hcltv : arr.countP (fun x => decide (f x < v)) ≤ arr.length :=
    List.countP_le_length _
  have hclev : arr.countP (fun x => decide (f x ≤ v)) ≤ arr.length :=
    List.countP_le_length _
  have hmonolt : ∀ a b, f a ≤ f b → (decide (f b < v)) = true →
      (decide (f a < v)) = true := by
    intro a b hab hb
    rw [decide_eq_true_eq] at hb ⊢
    omega
  have hmonole : ∀ a b, f a ≤ f b → (decide (f b ≤ v)) = true →
      (decide (f a ≤ v)) = true := by
    intro a b hab hb
    rw [decide_eq_true_eq] at hb ⊢
    omega
  have hslice : jsSlice arr (binarySearch arr f lo true)
      (binarySearch arr f hi false + 1)
      = arr.filter (fun x => lo ≤ f x && f x ≤ hi) := by
    rw [binarySearch_first_eq arr f lo hs, binarySearch_last_eq arr f hi hs]
    have heq : (arr.countP (fun x => decide (f x ≤ hi)) : Int) - 1 + 1
        = (arr.countP (fun x => decide (f x ≤ hi)) : Int) := by ring
    rw [heq]
    unfold jsSlice
    rw [Int.toNat_natCast, Int.toNat_natCast]
    exact sorted_dropTake_eq_filter f lo hi arr hs
  refine ⟨⟨by omega, by omega⟩, ?_, ⟨by omega, by omega⟩, ?_, hslice, ?_⟩
  · intro i hi2
    have hchar := sorted_char f (fun x => decide (f x < v)) hmonolt arr hs
      i hi2
    rw [decide_eq_true_eq] at hchar
    rw [hfirst, hchar]
    omega
  · intro i hi2
    have hchar := sorted_char f (fun x => decide (f x ≤ v)) hmonole arr hs
      i hi2
    rw [decide_eq_true_eq] at hchar
    rw [hlast, hchar]
    omega
  · intro hnone
    rw [hslice, List.filter_eq_nil_iff]
    intro x hx
    have := hnone x hx
    intro hb
    rw [Bool.and_eq_true, decide_eq_true_eq, decide_eq_true_eq] at hb
    exact this hb

/-- C8 witness: a concrete sorted index and range. -/
theorem C8_binary_search_boundaries_witness :
    jsSlice ([1, 3, 5] : List Int)
      (binarySearch ([1, 3, 5] : List Int) (fun x => x) 2 true)
      (binarySearch ([1, 3, 5] : List Int) (fun x => x) 4 false + 1)
      = [3] := by
  have h := (C8_binary_search_boundaries [1, 3, 5] (fun x => x) 2 2 4
    (by decide)).2.2.2.2.1
  have h2 : List.filter (fun x : Int => 2 ≤ x && x ≤ 4) [1, 3, 5] = [3] := by
    decide
  exact h.trans h2

theorem filter_insertSorted {α : Type} (f : α → Int) (p : α → Bool)
    (x : α) (l : List α) (hl : l.Pairwise (fun a b => f a ≤ f b)) :
    (insertSorted f x l).filter p
      = if p x then insertSorted f x (l.filter p) else l.filter p := by
  induction l with
  | nil =>
      by_cases hpx : p x = true
      · simp [insertSorted, hpx]
      · simp only [insertSorted, List.filter_cons, List.filter_nil, hpx,
          Bool.false_eq_true, if_false]
  | cons y ys ih =>
      rw [List.pairwise_cons] at hl
      obtain ⟨hy, hys⟩ := hl
      by_cases hxy : f x ≤ f y
      · rw [insertSorted, if_pos hxy]
        by_cases hpx : p x = true
        · by_cases hpy : p y = true
          · simp only [List.filter_cons, hpx, hpy, if_true]
            rw [insertSorted, if_pos hxy]
          · simp only [List.filter_cons, hpx, hpy, if_true,
              Bool.false_eq_true, if_false]
            rw [insertSorted_front f x (ys.filter p)]
            intro b hb
            exact le_trans hxy (hy b (List.mem_filter.mp hb).1)
        · simp only [List.filter_cons, hpx, Bool.false_eq_true, if_false]
      · rw [insertSorted, if_neg hxy]
        have ihr := ih hys
        by_cases hpx : p x = true
        · by_cases hpy : p y = true
          · simp only [List.filter_cons, hpx, hpy, if_true, ihr]
            rw [insertSorted, if_neg hxy]
          · simp only [List.filter_cons, hpx, hpy, if_true,
              Bool.false_eq_true, if_false, ihr]
        · by_cases hpy : p y = true
          · simp only [List.filter_cons, hpx, hpy, if_true,
              Bool.false_eq_true, if_false, ihr]
          · simp only [List.filter_cons, hpx, hpy,
              Bool.false_eq_true, if_false, ihr]

theorem sortByField_filter_comm {α : Type} (f : α → Int) (p : α → Bool)
    (l : List α) :
    (sortByField f l).filter p = sortByField f (l.filter p) := by
  induction l with
  | nil => rfl
  | cons x xs ih =>
      rw [sortByField, filter_insertSorted f p x (sortByField f xs)
        (pairwise_sortByField f xs), ih]
      by_cases hpx : p x = true
      · rw [if_pos hpx, List.filter_cons, if_pos hpx, sortByField]
      · rw [if_neg (by simp [hpx]), List.filter_cons,
          if_neg (by simp [hpx])]

/-- C7, amended: `queryRange` through a freshly built index returns
exactly the records the fallback linear filter returns — the same records
as a multiset — but in field-sorted order (the stable sort by the indexed
field of the fallback result), not in the fallback's table order; the two
coincide exactly when the filtered table is already sorted by the field. -/
theorem C7_index_fallback_amended {α : Type} [Inhabited α] (f : α → Int)
    (lo hi : Int) (data : List α) :
    queryRangeViaIndex f lo hi data
      = sortByField f (queryRangeFallback f lo hi data)
    ∧ (queryRangeViaIndex f lo hi data).Perm
        (queryRangeFallback f lo hi data) := by
  have hsorted := pairwise_sortByField f data
  have hmain : queryRangeViaIndex f lo hi data
      = sortByField f (queryRangeFallback f lo hi data) := by
    simp only [queryRangeViaIndex, createIndexContent]
    rw [binarySearch_first_eq _ f lo hsorted,
      binarySearch_last_eq _ f hi hsorted]
    have heq : ((sortByField f data).countP
        (fun x => decide (f x ≤ hi)) : Int) - 1 + 1
        = ((sortByField f data).countP (fun x => decide (f x ≤ hi)) : Int) :=
      by ring
    rw [heq]
    unfold jsSlice
    rw [Int.toNat_natCast, Int.toNat_natCast]
    rw [sorted_dropTake_eq_filter f lo hi _ hsorted]
    rw [sortByField_filter_comm]
    rfl
  refine ⟨hmain, ?_⟩
  rw [hmain]
  exact perm_sortByField f _

/-- C7, counterexample to the claim as stated: for the two-record table
`[20, 10]` (field values 20 and 10) and range `[0, 100]`, the index path
returns the records in field-sorted order `[10, 20]` while the fallback
returns them in table order `[20, 10]` — the same records, but not the
same order. -/
theorem C7_counterexample :
    queryRangeViaIndex (fun x : Int => x) 0 100 [20, 10] = [10, 20]
    ∧ queryRangeFallback (fun x : Int => x) 0 100 [20, 10] = [20, 10]
    ∧ queryRangeViaIndex (fun x : Int => x) 0 100 [20, 10]
      ≠ queryRangeFallback (fun x : Int => x) 0 100 [20, 10] := by
  decide
